import Mathlib

/-!
Shallow embedding of the core of the aiida-shell plugin: the ShellJob
calculation (src/aiida_shell/calculations/shell.py) and the ShellParser
output harvester (src/aiida_shell/parsers/shell.py).

Modelling conventions:
- file contents are modelled as Lean strings (byte-level identity becomes
  string identity);
- the retrieved directory is a finite map from relative paths to file
  contents plus a list of directory paths;
- Python exceptions that the code does not catch are modelled with Except;
- the random suffix produced by secrets.token_hex is injected as an entropy
  parameter (one token per node key), as the code draws one fresh token per
  collision.
-/

namespace AiidaShell

/-- ShellJob.FILENAME_STATUS (calculations/shell.py line 28). -/
def FILENAME_STATUS : String := "status"

/-- ShellJob.FILENAME_STDERR (calculations/shell.py line 29). -/
def FILENAME_STDERR : String := "stderr"

/-- ShellJob.FILENAME_STDOUT (calculations/shell.py line 30). -/
def FILENAME_STDOUT : String := "stdout"

/-- SinglefileData.DEFAULT_FILENAME from aiida-core, the type-default
placeholder filename of a single-file node. -/
def DEFAULT_FILENAME : String := "file.txt"

/-- Python truthiness-aware stdout filename selection:
`self.node.get_option('output_filename') or ShellJob.FILENAME_STDOUT`.
An unset option is `none`; an empty string is falsy in Python. -/
def effective_stdout (output_filename : Option String) : String :=
  match output_filename with
  | none => FILENAME_STDOUT
  | some f => if f = "" then FILENAME_STDOUT else f

/-! ## Python int() on the status file text -/

/-- Characters stripped by Python int() before parsing. -/
def isPySpace (c : Char) : Bool :=
  c = ' ' ∨ c = '\t' ∨ c = '\n' ∨ c = '\x0d' ∨ c = '\x0b' ∨ c = '\x0c'

/-- Digit run with optional single underscores between digits, as accepted by
Python int() (ASCII digits; a leading digit has already been consumed into
acc). -/
def pyDigitsGo (acc : Nat) : List Char → Option Nat
  | [] => some acc
  | '_' :: c :: cs =>
      if c.isDigit then pyDigitsGo (acc * 10 + (c.toNat - 48)) cs else none
  | '_' :: [] => none
  | c :: cs => if c.isDigit then pyDigitsGo (acc * 10 + (c.toNat - 48)) cs else none

/-- Nonempty digit string (underscore-separated groups allowed). -/
def pyDigits : List Char → Option Nat
  | [] => none
  | c :: cs => if c.isDigit then pyDigitsGo (c.toNat - 48) cs else none

/-- Model of Python `int(text)`: strip whitespace, optional sign, digits.
Returns none when Python would raise ValueError. -/
def pyInt (s : String) : Option Int :=
  let l := ((s.data.dropWhile isPySpace).reverse.dropWhile isPySpace).reverse
  match l with
  | '+' :: rest => (pyDigits rest).map (fun n => (n : Int))
  | '-' :: rest => (pyDigits rest).map (fun n => -(n : Int))
  | rest => (pyDigits rest).map (fun n => (n : Int))

/-! ## The retrieved directory -/

/-- The retrieved temporary folder read by ShellParser.parse: regular files
with their text content, and directories. -/
structure RetrievedDir where
  files : List (String × String)
  dirs : List String
deriving Repr

/-- Uncaught Python exceptions surfaced by the parser model. -/
inductive PyErr
  | isADirectoryError
deriving DecidableEq, Repr

/-- Model of opening a path for reading. FileNotFoundError is returned as
`.ok none` because the parser catches it at every use site;
IsADirectoryError is not caught anywhere, hence `.error`. -/
def readFile (d : RetrievedDir) (p : String) : Except PyErr (Option String) :=
  match d.files.find? (fun e => e.1 = p) with
  | some e => .ok (some e.2)
  | none => if d.dirs.contains p then .error .isADirectoryError else .ok none

/-- A path exists in the retrieved directory (pathlib Path.exists). -/
def pathExists (d : RetrievedDir) (p : String) : Bool :=
  d.files.any (fun e => e.1 = p) || d.dirs.contains p

/-- All paths present in the retrieved directory. -/
def entryPaths (d : RetrievedDir) : List String :=
  d.files.map (fun e => e.1) ++ d.dirs

/-! ## Globbing (pathlib Path.glob), used by parse_custom_outputs -/

/-- Fuel-bounded wildcard match of one path component; each step consumes a
pattern or subject character, so the initial fuel (sum of lengths plus one)
always suffices. -/
def wildMatchF : Nat → List Char → List Char → Bool
  | 0, _, _ => false
  | _ + 1, [], [] => true
  | fuel + 1, '*' :: ps, [] => wildMatchF fuel ps []
  | fuel + 1, '*' :: ps, c :: cs =>
      wildMatchF fuel ps (c :: cs) || wildMatchF fuel ('*' :: ps) cs
  | fuel + 1, p :: ps, c :: cs => p = c && wildMatchF fuel ps cs
  | _ + 1, _ :: _, [] => false
  | _ + 1, [], _ :: _ => false

/-- Wildcard match of one path component. -/
def wildMatch (p s : List Char) : Bool :=
  wildMatchF (p.length + s.length + 1) p s

/-- Split a character list on slashes. -/
def splitSlash : List Char → List (List Char)
  | [] => [[]]
  | '/' :: cs => [] :: splitSlash cs
  | c :: cs =>
      match splitSlash cs with
      | g :: gs => (c :: g) :: gs
      | [] => [[c]]

/-- Componentwise glob match: same number of path components, each matching. -/
def globMatch (pattern path : String) : Bool :=
  let ps := splitSlash pattern.data
  let cs := splitSlash path.data
  ps.length = cs.length && (List.zip ps cs).all (fun pc => wildMatch pc.1 pc.2)

/-- Model of `dirpath.glob(pattern)`: the existing entries whose relative
path matches the pattern (a glob never yields a non-existing path). -/
def globExpand (d : RetrievedDir) (pattern : String) : List String :=
  (entryPaths d).filter (fun p => globMatch pattern p)

/-- Final path component (pathlib PurePath.name). -/
def basename (p : String) : String :=
  String.mk ((splitSlash p.data).getLastD [])

/-! ## ShellParser.format_link_label (parsers/shell.py lines 56-73) -/

/-- Characters of the regex class 0-9a-zA-Z_ . -/
def linkChar (c : Char) : Bool :=
  c.isDigit || c.isAlpha || c = '_'

/-- Model of re.sub applied with pattern for one-or-more characters outside
the class 0-9a-zA-Z_ and replacement by a single underscore: the flag
records whether the previous character belonged to a replaced run. -/
def collapseBad : Bool → List Char → List Char
  | _, [] => []
  | prevBad, c :: cs =>
      if linkChar c then c :: collapseBad false cs
      else if prevBad then collapseBad true cs
      else '_' :: collapseBad true cs

/-- Model of re.sub applied with a pattern matching two or more consecutive
underscores and replacement by one underscore: every maximal run of
underscores collapses to a single underscore. -/
def collapseU : Bool → List Char → List Char
  | _, [] => []
  | prevU, c :: cs =>
      if c = '_' then
        if prevU then collapseU true cs else '_' :: collapseU true cs
      else c :: collapseU false cs

/-- Model of re.match with a pattern requiring one or more leading ASCII
digits: the filename starts with a digit. -/
def startsWithDigit (s : String) : Bool :=
  match s.data with
  | c :: _ => c.isDigit
  | [] => false

/-- The two substitutions of format_link_label, without the digit-prefix
step. -/
def link_transform (s : String) : String :=
  String.mk (collapseU false (collapseBad false s.data))

/-- ShellParser.format_link_label. -/
def format_link_label (filename : String) : String :=
  let filename :=
    if startsWithDigit filename then "aiida_shell_" ++ filename else filename
  link_transform filename

/-! ## ShellParser default and custom output parsing -/

/-- The exit codes the parser can return (ExitCode() is success). -/
inductive ExitStatus
  | success
  | ERROR_OUTPUT_STATUS_MISSING
  | ERROR_OUTPUT_STATUS_INVALID
  | ERROR_OUTPUT_STDOUT_MISSING
  | ERROR_OUTPUT_FILEPATHS_MISSING
  | ERROR_PARSER_HOOK_EXCEPTED
  | ERROR_COMMAND_FAILED
  | ERROR_STDERR_NOT_EMPTY
deriving DecidableEq, Repr

/-- ShellParser.parse_default_outputs (parsers/shell.py lines 75-113):
read stderr (absence tolerated), then stdout (its name possibly overridden
by the output_filename option), then the integer status file, then compare
status and stderr. -/
def parse_default_outputs (output_filename : Option String) (d : RetrievedDir) :
    Except PyErr ExitStatus := do
  let stderrOpt ← readFile d FILENAME_STDERR
  let stderr := stderrOpt.getD ""
  let stdoutOpt ← readFile d (effective_stdout output_filename)
  match stdoutOpt with
  | none => return .ERROR_OUTPUT_STDOUT_MISSING
  | some _ =>
  let statusOpt ← readFile d FILENAME_STATUS
  match statusOpt with
  | none => return .ERROR_OUTPUT_STATUS_MISSING
  | some text =>
  match pyInt text with
  | none => return .ERROR_OUTPUT_STATUS_INVALID
  | some exit_status =>
  if exit_status ≠ 0 then return .ERROR_COMMAND_FAILED
  else if stderr ≠ "" then return .ERROR_STDERR_NOT_EMPTY
  else return .success

/-- ShellParser.parse_custom_outputs (parsers/shell.py lines 115-137),
restricted to its missing-filepaths result (the captured artifacts are not
needed by the claims). A pattern containing an asterisk is expanded by glob;
otherwise it is a single literal path; each resolved path failing the
existence check contributes its final component. -/
def parse_custom_outputs (outputs : Option (List String)) (d : RetrievedDir) :
    List String :=
  match outputs with
  | none => []
  | some lst =>
      lst.foldl
        (fun missing filename =>
          let filepaths :=
            if filename.data.contains '*' then globExpand d filename
            else [filename]
          missing ++ (filepaths.filter (fun fp => ¬ pathExists d fp)).map basename)
        []

/-- The parser-relevant inputs recovered from the node: the outputs list,
the output_filename option, and the parser hook (present or not, and
whether calling it raises; the hook body itself is user code and is
abstracted by that boolean). -/
structure ParseInputs where
  outputs : Option (List String)
  output_filename : Option String
  parser : Option Bool
deriving Repr

/-- ShellParser.parse (parsers/shell.py lines 28-44): custom outputs first,
then default outputs, then the parser hook whose exception is returned
immediately, then the missing-filepaths check, else the default exit code. -/
def parse (inp : ParseInputs) (d : RetrievedDir) : Except PyErr ExitStatus := do
  let missing_filepaths := parse_custom_outputs inp.outputs d
  let exit_code ← parse_default_outputs inp.output_filename d
  match inp.parser with
  | some true => return .ERROR_PARSER_HOOK_EXCEPTED
  | _ =>
  if missing_filepaths ≠ [] then return .ERROR_OUTPUT_FILEPATHS_MISSING
  else return exit_code

/-! ## Input artifacts (the nodes input of ShellJob) -/

/-- The node kinds accepted in the nodes input: SinglefileData with its
optional intrinsic filename (none or empty string is falsy) and content;
FolderData with its file tree (relative path, content); RemoteData with its
remote path; and any other Data whose value property renders to a string
(validate_nodes guarantees the rendering succeeds). -/
inductive ANode
  | singlefile (filename : Option String) (content : String)
  | folder (tree : List (String × String))
  | remote (remotePath : String)
  | scalar (value : String)
deriving DecidableEq, Repr

/-- Lookup in an insertion-ordered string-keyed mapping (Python dict). -/
def alookup {α : Type} (l : List (String × α)) (k : String) : Option α :=
  (l.find? (fun e => e.1 = k)).map (fun e => e.2)

/-- First-level object names of a folder tree (FolderData.list_object_names):
the first path component of each stored file. -/
def firstLevelNames (tree : List (String × String)) : List String :=
  tree.map (fun e => String.mk ((splitSlash e.1.data).headD []))

/-- ShellJob.filenames_reserved (calculations/shell.py lines 428-439). -/
def filenames_reserved (output_filename : Option String) : List String :=
  [effective_stdout output_filename, FILENAME_STDERR, FILENAME_STATUS]

/-- The default filename of a SinglefileData node in prepare_filenames
(lines 452-454): the intrinsic filename when truthy and different from the
type default, else the node key. -/
def default_single_filename (key : String) (fn : Option String) : String :=
  match fn with
  | some f => if f ≠ "" ∧ f ≠ DEFAULT_FILENAME then f else key
  | none => key

/-- The filename a SinglefileData node is assigned before collision
handling: the explicit filenames entry when present, else the default. -/
def single_file_target (key : String) (fn : Option String)
    (explicit : Option String) : String :=
  explicit.getD (default_single_filename key fn)

/-- The warning message logged when a filename is renamed (lines 473-476).
The model keeps only the stable part of the text. -/
def collisionWarning (filename key alt : String) : String :=
  "filename " ++ filename ++ " for node " ++ key ++
    " overlaps with a reserved output filename. Changing it to " ++ alt ++ "."

/-- Collision handling of prepare_filenames (lines 471-477): a filename in
the reserved set is suffixed with an underscore and the entropy token drawn
for this key, and a warning is recorded. A folder node without an assigned
filename (none) is never renamed, matching the Python membership test of
None in a tuple of strings. -/
def collisionStep (reserved : List String) (entropy : String → String)
    (key : String) (fo : Option String) :
    (String × Option String) × List String :=
  match fo with
  | some f =>
      if reserved.contains f then
        ((key, some (f ++ "_" ++ entropy key)),
          [collisionWarning f key (f ++ "_" ++ entropy key)])
      else ((key, some f), [])
  | none => ((key, none), [])

/-- ShellJob.prepare_filenames (calculations/shell.py lines 441-481):
iterate the nodes in order; SinglefileData keys map to their target
filename, FolderData keys to their optional explicit filename after the
reserved-content check (RuntimeError modelled as the error case), other
nodes are skipped; any reserved filename is renamed with a warning. -/
def prepare_filenames (reserved : List String) (entropy : String → String)
    (filenames : List (String × String)) :
    List (String × ANode) →
    Except String (List (String × Option String) × List String)
  | [] => .ok ([], [])
  | (key, node) :: rest =>
    match node with
    | .singlefile fn _ => do
        let filename := single_file_target key fn (alookup filenames key)
        let (entry, warns) := collisionStep reserved entropy key (some filename)
        let (m, w) ← prepare_filenames reserved entropy filenames rest
        .ok (entry :: m, warns ++ w)
    | .folder tree => do
        if (firstLevelNames tree).any (fun f => reserved.contains f) then
          .error ("node " ++ key ++
            " contains a file which overlaps with a reserved output filename.")
        else
          let (entry, warns) := collisionStep reserved entropy key (alookup filenames key)
          let (m, w) ← prepare_filenames reserved entropy filenames rest
          .ok (entry :: m, warns ++ w)
    | _ => prepare_filenames reserved entropy filenames rest

/-! ## Placeholder parsing and substitution (string.Formatter / str.format)

The scan is a character state machine: outside a replacement field, a
doubled brace is an escape and a single closing brace is an error; an
opening brace enters a field whose name runs up to a colon, an exclamation
mark or the closing brace. Nested replacement fields inside format specs
are not modelled (no argument in this code base uses format specs). -/

/-- Field-name extraction behind
`[name for _, name, _, _ in formatter.parse(argument) if name]`
(lines 379-381): empty names are filtered out by the truthiness test. The
state carries the reversed name characters collected so far and whether the
name part has ended. -/
def fieldNamesAux : Option (List Char × Bool) → List Char → Except String (List String)
  | none, [] => .ok []
  | some _, [] => .error "ValueError: Single open brace encountered in format string"
  | none, '{' :: '{' :: rest => fieldNamesAux none rest
  | none, '}' :: '}' :: rest => fieldNamesAux none rest
  | none, '{' :: rest => fieldNamesAux (some ([], false)) rest
  | none, '}' :: _ => .error "ValueError: Single closing brace encountered in format string"
  | none, _ :: rest => fieldNamesAux none rest
  | some (acc, _), '}' :: rest => do
      let names ← fieldNamesAux none rest
      .ok (if acc.isEmpty then names else String.mk acc.reverse :: names)
  | some (acc, stopped), c :: rest =>
      if c = ':' ∨ c = '!' then fieldNamesAux (some (acc, true)) rest
      else fieldNamesAux (some (if stopped then acc else c :: acc, stopped)) rest

/-- Placeholder names of an argument string. -/
def fieldNames (argument : String) : Except String (List String) :=
  fieldNamesAux none argument.data

/-- Model of `argument.format(**mapping)`: substitutes each field by the
mapped value; a field absent from the mapping is a KeyError (and the empty
field of a bare replacement site an IndexError), both uncaught. -/
def pyFormatAux (m : String → Option String) :
    Option (List Char) → List Char → Except String (List Char)
  | none, [] => .ok []
  | some _, [] => .error "ValueError: Single open brace encountered in format string"
  | none, '{' :: '{' :: rest => do
      let l ← pyFormatAux m none rest
      .ok ('{' :: l)
  | none, '}' :: '}' :: rest => do
      let l ← pyFormatAux m none rest
      .ok ('}' :: l)
  | none, '{' :: rest => pyFormatAux m (some []) rest
  | none, '}' :: _ => .error "ValueError: Single closing brace encountered in format string"
  | none, c :: rest => do
      let l ← pyFormatAux m none rest
      .ok (c :: l)
  | some acc, '}' :: rest =>
      match m (String.mk acc.reverse) with
      | some v => do
          let l ← pyFormatAux m none rest
          .ok (v.data ++ l)
      | none => .error ("KeyError: " ++ String.mk acc.reverse)
  | some acc, c :: rest => pyFormatAux m (some (c :: acc)) rest

/-- Model of str.format with a keyword mapping. -/
def pyFormat (m : String → Option String) (argument : String) :
    Except String String := do
  let l ← pyFormatAux m none argument.data
  .ok (String.mk l)

/-! ## The working directory and staging writes -/

/-- The working directory contents: most recent write first. -/
abbrev FS : Type := List (String × String)

/-- Read a path: the most recent write to it. -/
def readFS (fs : FS) (p : String) : Option String :=
  (fs.find? (fun e => e.1 = p)).map (fun e => e.2)

/-- Perform a write (write_bytes overwrites). -/
def writeFS (fs : FS) (p c : String) : FS :=
  (p, c) :: fs

/-- Apply a list of writes in order; a later write shadows an earlier one. -/
def applyWrites (ws : List (String × String)) (fs : FS) : FS :=
  ws.foldl (fun acc e => writeFS acc e.1 e.2) fs

/-- Relative path of one folder-tree file under the assigned filename
(write_folder_data, lines 497-511: the tree is copied under the filename
when one is assigned, else directly into the working directory). -/
def joinRel : Option String → String → String
  | some f, rel => f ++ "/" ++ rel
  | none, rel => rel

/-- The writes performed by write_folder_data. -/
def folderWrites (fo : Option String) (tree : List (String × String)) :
    List (String × String) :=
  tree.map (fun e => (joinRel fo e.1, e.2))

/-- The writes a node staged under a prepared-filename mapping performs:
write_single_file_data for a single file, write_folder_data for a folder,
nothing otherwise. A missing mapping entry would be a Python KeyError and
cannot occur for file-like nodes. -/
def nodeWrites (prepared : List (String × Option String)) (key : String) :
    ANode → List (String × String)
  | .singlefile _ content =>
      match alookup prepared key with
      | some (some f) => [(f, content)]
      | _ => []
  | .folder tree =>
      match alookup prepared key with
      | some fo => folderWrites fo tree
      | none => []
  | _ => []

/-- The paths a staged node writes to. -/
def nodeWritePaths (prepared : List (String × Option String)) (key : String)
    (n : ANode) : List String :=
  (nodeWrites prepared key n).map (fun e => e.1)

/-! ## ShellJob.process_arguments_and_nodes (lines 348-426) -/

/-- Python `filename or placeholder` for a FolderData target (line 408):
the assigned filename when truthy, else the placeholder itself. -/
def folderSub (placeholder : String) : Option String → String
  | some f => if f = "" then placeholder else f
  | none => placeholder

/-- Node-type dispatch inside the argument loop (lines 401-412). Returns
the interpolated argument, the consumed placeholder, and the writes
performed. A RemoteData bound to a placeholder reaches
`self.handle_remote_data(node)` at line 410, but ShellJob and its
aiida-core bases define no attribute handle_remote_data, so the lookup
raises AttributeError (and even with such a method, argument_interpolated
would be unbound in that branch). -/
def processNode (prepared : List (String × Option String))
    (placeholder argument : String) :
    ANode → Except String (String × Option String × List (String × String))
  | .singlefile _ content =>
      match alookup prepared placeholder with
      | some (some filename) => do
          let a ← pyFormat
            (fun n => if n = placeholder then some filename else none) argument
          .ok (a, some placeholder, [(filename, content)])
      | _ => .error "KeyError: prepared_filenames"
  | .folder tree =>
      match alookup prepared placeholder with
      | some fo => do
          let a ← pyFormat
            (fun n => if n = placeholder then some (folderSub placeholder fo)
              else none) argument
          .ok (a, some placeholder, folderWrites fo tree)
      | none => .error "KeyError: prepared_filenames"
  | .remote _ =>
      .error "AttributeError: ShellJob object has no attribute handle_remote_data"
  | .scalar v => do
      let a ← pyFormat
        (fun n => if n = placeholder then some v else none) argument
      .ok (a, some placeholder, [])

/-- Placeholder resolution inside the argument loop (lines 396-399): the
placeholder must name an entry of the nodes input. -/
def processPlaceholder (nodes : List (String × ANode))
    (prepared : List (String × Option String)) (placeholder argument : String) :
    Except String (String × Option String × List (String × String)) :=
  match alookup nodes placeholder with
  | none =>
      .error ("ValueError: argument placeholder " ++ placeholder ++
        " not specified in nodes.")
  | some node => processNode prepared placeholder argument node

/-- Processing of one argument (loop body, lines 379-415): extract the
placeholders, pass a placeholder-free argument through str.format, reject
more than one placeholder, and dispatch a single placeholder. -/
def processArgument (nodes : List (String × ANode))
    (prepared : List (String × Option String)) (argument : String) :
    Except String (String × Option String × List (String × String)) := do
  let field_names ← fieldNames argument
  match field_names with
  | [] => do
      let a ← pyFormat (fun _ => none) argument
      .ok (a, none, [])
  | [placeholder] => processPlaceholder nodes prepared placeholder argument
  | _ =>
      .error ("ValueError: argument " ++ argument ++
        " is invalid as it contains more than one placeholder.")

/-- Prepend the consumed placeholder, if any, to the processed_nodes list. -/
def consOpt (u : Option String) (us : List String) : List String :=
  match u with
  | some p => p :: us
  | none => us

/-- The argument loop: processed arguments, processed placeholders and
writes, in order. -/
def processLoop (nodes : List (String × ANode))
    (prepared : List (String × Option String)) :
    List String →
    Except String (List String × List String × List (String × String))
  | [] => .ok ([], [], [])
  | argument :: rest => do
      let (a, used, w) ← processArgument nodes prepared argument
      let (arest, urest, wrest) ← processLoop nodes prepared rest
      .ok (a :: arest, consOpt used urest, w ++ wrest)

/-- The writes performed for one node of the trailing loop:
write_single_file_data for a SinglefileData key, write_folder_data for a
FolderData key, nothing for the other kinds (which are never written). A
missing prepared entry would be a Python KeyError. -/
def stageOne (prepared : List (String × Option String)) (key : String) :
    ANode → Except String (List (String × String))
  | .singlefile _ content =>
      match alookup prepared key with
      | some (some f) => Except.ok [(f, content)]
      | _ => Except.error "KeyError: prepared_filenames"
  | .folder tree =>
      match alookup prepared key with
      | some fo => Except.ok (folderWrites fo tree)
      | none => Except.error "KeyError: prepared_filenames"
  | _ => Except.ok []

/-- The trailing loop (lines 417-425): stage every file-like node whose key
was not consumed by a placeholder. -/
def stageUnprocessed (prepared : List (String × Option String))
    (processed : List String) :
    List (String × ANode) → Except String (List (String × String))
  | [] => .ok []
  | (key, node) :: rest =>
      if processed.contains key then stageUnprocessed prepared processed rest
      else do
        let w ← stageOne prepared key node
        let wrest ← stageUnprocessed prepared processed rest
        .ok (w ++ wrest)

/-- ShellJob.process_arguments_and_nodes: prepare the filenames, process
the arguments, stage the unreferenced file-like nodes, and return the
processed argument vector together with the resulting working-directory
contents and the warnings recorded during filename preparation. -/
def process_arguments_and_nodes (reserved : List String)
    (entropy : String → String) (nodes : List (String × ANode))
    (filenames : List (String × String)) (arguments : List String) :
    Except String (List String × FS × List String) := do
  let (prepared, warnings) ← prepare_filenames reserved entropy filenames nodes
  let (args, used, ws1) ← processLoop nodes prepared arguments
  let ws2 ← stageUnprocessed prepared used nodes
  .ok (args, applyWrites (ws1 ++ ws2) [], warnings)

/-! ## Validators and remote-data routing -/

/-- ShellJob.validate_inputs (lines 164-179): every explicit filenames
entry is checked against the stdout filename (the output_filename option
with the dict-get default, not the truthiness default), the stderr filename
and the status filename. -/
def validate_inputs_go (filename_stdout : String) :
    List (String × String) → Option String
  | [] => none
  | (key, filename) :: rest =>
      if filename = filename_stdout ∨ filename = FILENAME_STDERR ∨
          filename = FILENAME_STATUS then
        some ("Input filename " ++ filename ++ " for node " ++ key ++
          " overlaps with an output filename.")
      else validate_inputs_go filename_stdout rest

def validate_inputs (output_filename : Option String)
    (filenames : List (String × String)) : Option String :=
  validate_inputs_go (output_filename.getD FILENAME_STDOUT) filenames

/-- ShellJob.validate_outputs (lines 245-255): the outputs list is checked
against the three class constants only; an empty or absent list passes. -/
def validate_outputs (value : Option (List String)) : Option String :=
  match value with
  | none => none
  | some outs =>
      if outs.isEmpty then none
      else if outs.contains FILENAME_STATUS then
        some (FILENAME_STATUS ++ " is a reserved output filename and cannot be used in outputs.")
      else if outs.contains FILENAME_STDERR then
        some (FILENAME_STDERR ++ " is a reserved output filename and cannot be used in outputs.")
      else if outs.contains FILENAME_STDOUT then
        some (FILENAME_STDOUT ++ " is a reserved output filename and cannot be used in outputs.")
      else none

/-- ShellJob.handle_remote_data_nodes (lines 331-346): every RemoteData
node in the nodes input yields one instruction (computer uuid, remote path
glob, current-directory destination), all routed to the symlink list when
use_symlinks is set and to the copy list otherwise. -/
def handle_remote_data_nodes (use_symlinks : Bool) (computer_uuid : String)
    (nodes : List (String × ANode)) :
    List (String × String × String) × List (String × String × String) :=
  let remote_nodes := nodes.filterMap
    (fun kn => match kn.2 with | .remote p => some p | _ => none)
  let instructions := remote_nodes.map (fun p => (computer_uuid, p ++ "/*", "."))
  if use_symlinks then ([], instructions) else (instructions, [])

/-! # Theorems

## C9: format_link_label -/

/-- Absence of two consecutive underscores. -/
def noDoubleUnderscore : List Char → Bool
  | [] => true
  | [_] => true
  | a :: b :: rest => !(a = '_' && b = '_') && noDoubleUnderscore (b :: rest)

theorem collapseBad_cons_good (b : Bool) (x : Char) (xs : List Char)
    (hx : linkChar x = true) :
    collapseBad b (x :: xs) = x :: collapseBad false xs := by
  simp [collapseBad, hx]

theorem collapseBad_cons_bad_true (x : Char) (xs : List Char)
    (hx : linkChar x = false) :
    collapseBad true (x :: xs) = collapseBad true xs := by
  simp [collapseBad, hx]

theorem collapseBad_cons_bad_false (x : Char) (xs : List Char)
    (hx : linkChar x = false) :
    collapseBad false (x :: xs) = '_' :: collapseBad true xs := by
  simp [collapseBad, hx]

theorem collapseU_cons_und_true (xs : List Char) :
    collapseU true ('_' :: xs) = collapseU true xs := by
  simp [collapseU]

theorem collapseU_cons_und_false (xs : List Char) :
    collapseU false ('_' :: xs) = '_' :: collapseU true xs := by
  simp [collapseU]

theorem collapseU_cons_other (b : Bool) (x : Char) (xs : List Char)
    (hx : x ≠ '_') :
    collapseU b (x :: xs) = x :: collapseU false xs := by
  simp [collapseU, hx]

theorem collapseBad_mem (l : List Char) :
    ∀ b, ∀ c ∈ collapseBad b l, linkChar c = true := by
  induction l with
  | nil => intro b c hc; simp [collapseBad] at hc
  | cons x xs ih =>
    intro b c hc
    cases hx : linkChar x with
    | true =>
      rw [collapseBad_cons_good b x xs hx] at hc
      rcases List.mem_cons.mp hc with h | h
      · exact h ▸ hx
      · exact ih false c h
    | false =>
      cases b with
      | true =>
        rw [collapseBad_cons_bad_true x xs hx] at hc
        exact ih true c hc
      | false =>
        rw [collapseBad_cons_bad_false x xs hx] at hc
        rcases List.mem_cons.mp hc with h | h
        · subst h; rfl
        · exact ih true c h

theorem collapseU_mem (l : List Char) :
    ∀ b, ∀ c ∈ collapseU b l, c ∈ l := by
  induction l with
  | nil => intro b c hc; simp [collapseU] at hc
  | cons x xs ih =>
    intro b c hc
    by_cases hx : x = '_'
    · subst hx
      cases b with
      | true =>
        rw [collapseU_cons_und_true xs] at hc
        exact List.mem_cons_of_mem _ (ih true c hc)
      | false =>
        rw [collapseU_cons_und_false xs] at hc
        rcases List.mem_cons.mp hc with h | h
        · simp [h]
        · exact List.mem_cons_of_mem _ (ih true c h)
    · rw [collapseU_cons_other b x xs hx] at hc
      rcases List.mem_cons.mp hc with h | h
      · simp [h]
      · exact List.mem_cons_of_mem _ (ih false c h)

theorem collapseU_true_head (l : List Char) :
    ∀ c rest, collapseU true l = c :: rest → c ≠ '_' := by
  induction l with
  | nil => intro c rest h; simp [collapseU] at h
  | cons x xs ih =>
    intro c rest h
    by_cases hx : x = '_'
    · subst hx
      rw [collapseU_cons_und_true xs] at h
      exact ih c rest h
    · rw [collapseU_cons_other true x xs hx] at h
      cases h
      exact hx

theorem collapseU_noDouble (l : List Char) :
    ∀ b, noDoubleUnderscore (collapseU b l) = true := by
  induction l with
  | nil => intro b; rfl
  | cons x xs ih =>
    intro b
    by_cases hx : x = '_'
    · subst hx
      cases b with
      | true =>
        rw [collapseU_cons_und_true xs]
        exact ih true
      | false =>
        rw [collapseU_cons_und_false xs]
        cases hY : collapseU true xs with
        | nil => rfl
        | cons c rest =>
          have hc : c ≠ '_' := collapseU_true_head xs c rest hY
          have hr := ih true
          rw [hY] at hr
          simp [noDoubleUnderscore, hc, hr]
    · rw [collapseU_cons_other b x xs hx]
      cases hY : collapseU false xs with
      | nil => rfl
      | cons c rest =>
        have hr := ih false
        rw [hY] at hr
        simp [noDoubleUnderscore, hx, hr]

theorem collapseBad_dup (xs : List Char) :
    ∀ b c1 c2 ys, linkChar c1 = false → linkChar c2 = false →
      collapseBad b (xs ++ c1 :: c2 :: ys) = collapseBad b (xs ++ c2 :: ys) := by
  induction xs with
  | nil =>
    intro b c1 c2 ys h1 h2
    cases b with
    | true =>
      show collapseBad true (c1 :: c2 :: ys) = collapseBad true (c2 :: ys)
      rw [collapseBad_cons_bad_true c1 _ h1, collapseBad_cons_bad_true c2 _ h2]
    | false =>
      show collapseBad false (c1 :: c2 :: ys) = collapseBad false (c2 :: ys)
      rw [collapseBad_cons_bad_false c1 _ h1, collapseBad_cons_bad_true c2 _ h2,
        collapseBad_cons_bad_false c2 _ h2]
  | cons x xs ih =>
    intro b c1 c2 ys h1 h2
    have e1 : ((x :: xs) ++ c1 :: c2 :: ys : List Char) = x :: (xs ++ c1 :: c2 :: ys) := rfl
    have e2 : ((x :: xs) ++ c2 :: ys : List Char) = x :: (xs ++ c2 :: ys) := rfl
    rw [e1, e2]
    cases hx : linkChar x with
    | true =>
      rw [collapseBad_cons_good b x _ hx, collapseBad_cons_good b x _ hx,
        ih false c1 c2 ys h1 h2]
    | false =>
      cases b with
      | true =>
        rw [collapseBad_cons_bad_true x _ hx, collapseBad_cons_bad_true x _ hx,
          ih true c1 c2 ys h1 h2]
      | false =>
        rw [collapseBad_cons_bad_false x _ hx, collapseBad_cons_bad_false x _ hx,
          ih true c1 c2 ys h1 h2]

theorem digit_linkChar {c : Char} (h : c.isDigit = true) : linkChar c = true := by
  simp [linkChar, h]

theorem collapseBad_good_pre (g : List Char) (l : List Char)
    (hg : ∀ c ∈ g, linkChar c = true) :
    collapseBad false (g ++ l) = g ++ collapseBad false l := by
  induction g with
  | nil => rfl
  | cons x xs ih =>
    have hx : linkChar x = true := hg x (by simp)
    have e1 : ((x :: xs) ++ l : List Char) = x :: (xs ++ l) := rfl
    rw [e1, collapseBad_cons_good false x _ hx,
      ih (fun c hc => hg c (List.mem_cons_of_mem _ hc))]
    rfl

theorem collapseU_aiida_pre (c : Char) (l : List Char) (hc : c ≠ '_') :
    collapseU false ("aiida_shell_".data ++ c :: l) =
      "aiida_shell_".data ++ collapseU false (c :: l) := by
  have h1 : collapseU false ("aiida_shell_".data ++ c :: l) =
      'a' :: 'i' :: 'i' :: 'd' :: 'a' :: '_' :: 's' :: 'h' :: 'e' :: 'l' :: 'l' :: '_' :: collapseU true (c :: l) := rfl
  rw [h1, collapseU_cons_other true c l hc, collapseU_cons_other false c l hc]
  rfl

/-- C9: for every filename, format_link_label produces only alphanumerics
and underscores with no two consecutive underscores; two adjacent
characters outside that class collapse into one (so each run of such
characters reduces to a single underscore); a filename starting with a
digit maps to the fixed namespace prefix followed by the plain
transformation; and the two concrete examples of the spec evaluate as
stated. -/
theorem C9_format_link_label_characterization :
    (∀ s : String, ∀ c ∈ (format_link_label s).data, linkChar c = true) ∧
    (∀ s : String, noDoubleUnderscore (format_link_label s).data = true) ∧
    (∀ (pre suf : List Char) (c1 c2 : Char),
      linkChar c1 = false → linkChar c2 = false →
      format_link_label (String.mk (pre ++ c1 :: c2 :: suf)) =
        format_link_label (String.mk (pre ++ c2 :: suf))) ∧
    (∀ s : String, startsWithDigit s = true →
      format_link_label s = "aiida_shell_" ++ link_transform s) ∧
    format_link_label "filename-with-dashes.txt" = "filename_with_dashes_txt" ∧
    format_link_label "123starts.txt" = "aiida_shell_123starts_txt" := by
  refine ⟨?_, ?_, ?_, ?_, by decide, by decide⟩
  · intro s c hc
    simp only [format_link_label, link_transform] at hc
    exact collapseBad_mem _ false c (collapseU_mem _ false c hc)
  · intro s
    simp only [format_link_label, link_transform]
    exact collapseU_noDouble _ false
  · intro pre suf c1 c2 h1 h2
    have hnd1 : c1.isDigit = false := by
      cases h : c1.isDigit
      · rfl
      · rw [digit_linkChar h] at h1; cases h1
    have hnd2 : c2.isDigit = false := by
      cases h : c2.isDigit
      · rfl
      · rw [digit_linkChar h] at h2; cases h2
    have hsw : startsWithDigit (String.mk (pre ++ c1 :: c2 :: suf)) =
        startsWithDigit (String.mk (pre ++ c2 :: suf)) := by
      cases pre with
      | nil => simp [startsWithDigit, hnd1, hnd2]
      | cons p ps => simp [startsWithDigit]
    unfold format_link_label
    rw [hsw]
    by_cases hd : startsWithDigit (String.mk (pre ++ c2 :: suf)) = true
    · simp only [hd, if_pos, link_transform]
      have e1 : ("aiida_shell_" ++ String.mk (pre ++ c1 :: c2 :: suf)).data =
          ("aiida_shell_".data ++ pre) ++ c1 :: c2 :: suf := by
        rw [String.data_append]
        simp
      have e2 : ("aiida_shell_" ++ String.mk (pre ++ c2 :: suf)).data =
          ("aiida_shell_".data ++ pre) ++ c2 :: suf := by
        rw [String.data_append]
        simp
      rw [e1, e2, collapseBad_dup _ false c1 c2 suf h1 h2]
    · simp only [hd, if_neg, if_false, link_transform]
      show String.mk (collapseU false (collapseBad false (pre ++ c1 :: c2 :: suf))) =
        String.mk (collapseU false (collapseBad false (pre ++ c2 :: suf)))
      rw [collapseBad_dup pre false c1 c2 suf h1 h2]
  · intro s hs
    obtain ⟨d, rest, hdata, hd⟩ :
        ∃ d rest, s.data = d :: rest ∧ d.isDigit = true := by
      unfold startsWithDigit at hs
      cases h : s.data with
      | nil => rw [h] at hs; cases hs
      | cons d rest => rw [h] at hs; exact ⟨d, rest, rfl, hs⟩
    have hdu : d ≠ '_' := by
      intro h
      rw [h] at hd
      exact absurd hd (by decide)
    unfold format_link_label
    rw [hs]
    simp only [if_pos]
    show link_transform ("aiida_shell_" ++ s) = "aiida_shell_" ++ link_transform s
    unfold link_transform
    rw [String.data_append]
    have hgood : ∀ c ∈ ("aiida_shell_".data : List Char), linkChar c = true := by decide
    rw [collapseBad_good_pre _ _ hgood]
    have hX : collapseBad false s.data = d :: collapseBad false rest := by
      rw [hdata, collapseBad_cons_good false d rest (digit_linkChar hd)]
    rw [hX, collapseU_aiida_pre d _ hdu, ← hX]
    rfl

/-- Witness for C9: the bad-run collapse and digit-prefix conjuncts applied
at concrete inputs. -/
theorem C9_witness :
    format_link_label "a-.b" = format_link_label "a.b" ∧
    format_link_label "1x" = "aiida_shell_" ++ link_transform "1x" := by
  constructor
  · have h := C9_format_link_label_characterization.2.2.1
      ['a'] ['b'] '-' '.' (by decide) (by decide)
    simpa using h
  · exact C9_format_link_label_characterization.2.2.2.1 "1x" (by decide)

/-! ## C5: validate_outputs and the reserved names -/

/-- Counterexample to C5: with the stdout filename overridden to
my_stdout, an outputs entry equal to that override is a reserved name per
the claim, yet validate_outputs accepts the list, because the validator
compares only against the fixed class constants. -/
theorem C5_counterexample :
    validate_outputs (some ["my_stdout"]) = none ∧
    "my_stdout" ∈ filenames_reserved (some "my_stdout") := by
  constructor
  · rfl
  · simp [filenames_reserved, effective_stdout]

/-- C5 amended: validate_outputs rejects an outputs list exactly when it
contains one of the three fixed default names status, stderr, stdout,
irrespective of any output_filename override (which the validator cannot
see). -/
theorem C5_amended_validate_outputs_fixed_names (outs : List String) :
    (validate_outputs (some outs)).isSome = true ↔
      (FILENAME_STATUS ∈ outs ∨ FILENAME_STDERR ∈ outs ∨ FILENAME_STDOUT ∈ outs) := by
  unfold validate_outputs
  by_cases he : outs = []
  · subst he; simp
  · have he2 : outs.isEmpty = false := by simpa [List.isEmpty_iff] using he
    simp only [he2, Bool.false_eq_true, if_false]
    by_cases h1 : FILENAME_STATUS ∈ outs
    · simp [h1]
    · by_cases h2 : FILENAME_STDERR ∈ outs
      · simp [h1, h2]
      · by_cases h3 : FILENAME_STDOUT ∈ outs
        · simp [h1, h2, h3]
        · simp [h1, h2, h3]

/-! ## C7: RemoteData bound to a placeholder -/

/-- C7: binding a RemoteData node to an argument placeholder crashes
processing (line 410 calls self.handle_remote_data, an attribute that
exists nowhere on ShellJob or its bases, so Python raises AttributeError
before any substitution), while handle_remote_data_nodes does route every
RemoteData node to exactly one copy or symlink instruction of the shape
(computer uuid, remote path glob, current directory), the other list being
empty. -/
theorem C7_remote_placeholder_crash :
    process_arguments_and_nodes ["stdout", "stderr", "status"] (fun _ => "t0")
        [("remote", ANode.remote "/some/path")] [] ["{remote}"] =
      .error "AttributeError: ShellJob object has no attribute handle_remote_data" ∧
    handle_remote_data_nodes true "uuid-1" [("remote", ANode.remote "/some/path")] =
      ([], [("uuid-1", "/some/path/*", ".")]) ∧
    handle_remote_data_nodes false "uuid-1" [("remote", ANode.remote "/some/path")] =
      ([("uuid-1", "/some/path/*", ".")], []) := by
  refine ⟨rfl, rfl, rfl⟩

/-! ## C6: unmatched glob patterns in the outputs input -/

/-- Counterexample to C6: outputs contains the glob *.xyz, nothing in the
retrieved directory matches it, the default outputs succeed, and parse
returns success: the unmatched glob is not recorded in the missing list and
ERROR_OUTPUT_FILEPATHS_MISSING is not returned. -/
theorem C6_counterexample :
    parse ⟨some ["*.xyz"], none, none⟩ ⟨[("stdout", "x"), ("status", "0")], []⟩ =
      .ok .success ∧
    parse_custom_outputs (some ["*.xyz"]) ⟨[("stdout", "x"), ("status", "0")], []⟩ = [] ∧
    ExitStatus.success ≠ ExitStatus.ERROR_OUTPUT_FILEPATHS_MISSING := by
  refine ⟨rfl, rfl, by decide⟩

theorem globExpand_exists (d : RetrievedDir) (pattern : String) :
    ∀ p ∈ globExpand d pattern, pathExists d p = true := by
  intro p hp
  have hmem : p ∈ entryPaths d := List.mem_of_mem_filter hp
  unfold entryPaths at hmem
  unfold pathExists
  rcases List.mem_append.mp hmem with h | h
  · obtain ⟨e, he, hep⟩ := List.mem_map.mp h
    have ha : d.files.any (fun e => e.1 = p) = true :=
      List.any_eq_true.mpr ⟨e, he, by simp [hep]⟩
    rw [ha, Bool.true_or]
  · have hc : d.dirs.contains p = true := List.elem_iff.mpr h
    rw [hc, Bool.or_true]

theorem parse_custom_outputs_all_glob (d : RetrievedDir) :
    ∀ (outs : List String) (acc : List String),
      (∀ f ∈ outs, f.data.contains '*' = true) →
      outs.foldl
        (fun missing filename =>
          let filepaths :=
            if filename.data.contains '*' then globExpand d filename
            else [filename]
          missing ++ (filepaths.filter (fun fp => ¬ pathExists d fp)).map basename)
        acc = acc := by
  intro outs
  induction outs with
  | nil => intro acc _; rfl
  | cons f fs ih =>
    intro acc hall
    have hf : f.data.contains '*' = true := hall f (by simp)
    have hfil : (globExpand d f).filter (fun fp => ¬ pathExists d fp) = [] := by
      apply List.filter_eq_nil_iff.mpr
      intro p hp
      simp [globExpand_exists d f p hp]
    rw [List.foldl_cons]
    simp only [hf, if_pos, hfil, List.map_nil, List.append_nil]
    exact ih acc (fun g hg => hall g (List.mem_cons_of_mem _ hg))

/-- C6 amended: a glob pattern that matches nothing contributes nothing to
the missing-outputs list (glob expansion yields only existing paths, and an
empty expansion is silently skipped); consequently when every outputs entry
is a glob and the default outputs succeed with no parser hook failure,
parse returns the default outcome, not ERROR_OUTPUT_FILEPATHS_MISSING.
Only missing literal, non-glob paths are recorded. -/
theorem C6_amended_unmatched_glob_silent (inp : ParseInputs) (d : RetrievedDir)
    (outs : List String) (c : ExitStatus)
    (houts : inp.outputs = some outs)
    (hglob : ∀ f ∈ outs, f.data.contains '*' = true)
    (hdef : parse_default_outputs inp.output_filename d = .ok c)
    (hpar : inp.parser ≠ some true) :
    parse_custom_outputs inp.outputs d = [] ∧ parse inp d = .ok c := by
  have hmissing : parse_custom_outputs inp.outputs d = [] := by
    rw [houts]
    unfold parse_custom_outputs
    exact parse_custom_outputs_all_glob d outs [] hglob
  refine ⟨hmissing, ?_⟩
  unfold parse
  rw [hdef, hmissing]
  cases hp : inp.parser with
  | none => rfl
  | some b =>
    cases b with
    | true => exact absurd hp hpar
    | false => rfl

/-- Witness for C6 amended: a single unmatched glob over a directory whose
default outputs succeed. -/
theorem C6_amended_witness :
    parse ⟨some ["*.dat"], none, none⟩ ⟨[("stdout", "x"), ("status", "0")], []⟩ =
      .ok .success := by
  have h := C6_amended_unmatched_glob_silent ⟨some ["*.dat"], none, none⟩
    ⟨[("stdout", "x"), ("status", "0")], []⟩ ["*.dat"] .success rfl
    (by intro f hf; simp at hf; subst hf; rfl) rfl (by intro h; cases h)
  exact h.2

/-! ## C1: precedence of the terminal statuses in parse -/

/-- Counterexample to C1: a run where a declared output path is missing and
the parser hook raises returns ERROR_PARSER_HOOK_EXCEPTED, not
ERROR_OUTPUT_FILEPATHS_MISSING as the claim requires (the same input also
shows a missing declared output taking precedence over the non-zero exit
status, against the claimed order). -/
theorem C1_counterexample :
    parse ⟨some ["missing.txt"], none, some true⟩
        ⟨[("stdout", "x"), ("status", "1")], []⟩ =
      .ok .ERROR_PARSER_HOOK_EXCEPTED ∧
    parse_custom_outputs (some ["missing.txt"])
        ⟨[("stdout", "x"), ("status", "1")], []⟩ = ["missing.txt"] ∧
    ExitStatus.ERROR_PARSER_HOOK_EXCEPTED ≠ ExitStatus.ERROR_OUTPUT_FILEPATHS_MISSING := by
  refine ⟨rfl, rfl, by decide⟩

/-- C1 amended: when the default-output phase completes, the returned
status follows the precedence parser-hook exception, then missing declared
outputs, then the default-output code (whose internal order is missing
stdout, then missing status, then invalid status, then non-zero exit, then
non-empty stderr on success). -/
theorem C1_amended_precedence (inp : ParseInputs) (d : RetrievedDir)
    (c : ExitStatus)
    (hdef : parse_default_outputs inp.output_filename d = .ok c) :
    parse inp d = .ok
      (if inp.parser = some true then .ERROR_PARSER_HOOK_EXCEPTED
       else if parse_custom_outputs inp.outputs d ≠ [] then
         .ERROR_OUTPUT_FILEPATHS_MISSING
       else c) := by
  unfold parse
  rw [hdef]
  cases hp : inp.parser with
  | none =>
    by_cases hm : parse_custom_outputs inp.outputs d = []
    · simp [hm]
    · simp [hm]
  | some b =>
    cases b with
    | true => rfl
    | false =>
      by_cases hm : parse_custom_outputs inp.outputs d = []
      · simp [hm]
      · simp [hm]

/-- Witness for C1 amended: the precedence theorem applied at a concrete
run with a raising hook and a missing declared output. -/
theorem C1_amended_witness :
    parse ⟨some ["missing.txt"], none, some true⟩
        ⟨[("stdout", "x"), ("status", "1")], []⟩ =
      .ok .ERROR_PARSER_HOOK_EXCEPTED := by
  have h := C1_amended_precedence ⟨some ["missing.txt"], none, some true⟩
    ⟨[("stdout", "x"), ("status", "1")], []⟩ .ERROR_COMMAND_FAILED rfl
  simpa using h

/-! ## C2: the default-output decision of the parser -/

theorem parse_default_outputs_eq (o : Option String) (d : RetrievedDir) :
    parse_default_outputs o d =
      match readFile d FILENAME_STDERR with
      | .error e => .error e
      | .ok stderrOpt =>
        match readFile d (effective_stdout o) with
        | .error e => .error e
        | .ok none => .ok .ERROR_OUTPUT_STDOUT_MISSING
        | .ok (some _) =>
          match readFile d FILENAME_STATUS with
          | .error e => .error e
          | .ok none => .ok .ERROR_OUTPUT_STATUS_MISSING
          | .ok (some text) =>
            match pyInt text with
            | none => .ok .ERROR_OUTPUT_STATUS_INVALID
            | some n =>
              if n ≠ 0 then .ok .ERROR_COMMAND_FAILED
              else if stderrOpt.getD "" ≠ "" then .ok .ERROR_STDERR_NOT_EMPTY
              else .ok .success := by
  unfold parse_default_outputs
  cases readFile d FILENAME_STDERR with
  | error e => rfl
  | ok x =>
    cases readFile d (effective_stdout o) with
    | error e => rfl
    | ok y =>
      cases y with
      | none => rfl
      | some c =>
        cases readFile d FILENAME_STATUS with
        | error e => rfl
        | ok z =>
          cases z with
          | none => rfl
          | some t =>
            cases pyInt t with
            | none => rfl
            | some n => rfl

/-- C2: parse_default_outputs returns success exactly when the stdout file
(default name or override) is present as a regular file, the status file is
present and its text parses as the integer zero, and the stderr file is
absent or empty; and, read as the cascade the code implements, a missing
stdout yields ERROR_OUTPUT_STDOUT_MISSING, a missing status (with stdout
present) ERROR_OUTPUT_STATUS_MISSING, a non-integer status
ERROR_OUTPUT_STATUS_INVALID, a non-zero parsed status ERROR_COMMAND_FAILED
with no condition whatsoever on the stderr content, and a zero status with
non-empty stderr ERROR_STDERR_NOT_EMPTY. The clauses after the first carry
the hypothesis that the stderr read completed (a directory sitting at the
stderr path would raise IsADirectoryError instead). -/
theorem C2_parse_default_outputs_characterization
    (o : Option String) (d : RetrievedDir) :
    (parse_default_outputs o d = .ok .success ↔
      ((∃ c, readFile d (effective_stdout o) = .ok (some c)) ∧
       (∃ s, readFile d FILENAME_STATUS = .ok (some s) ∧ pyInt s = some 0) ∧
       (readFile d FILENAME_STDERR = .ok none ∨
        readFile d FILENAME_STDERR = .ok (some "")))) ∧
    ((∃ x, readFile d FILENAME_STDERR = .ok x) →
      readFile d (effective_stdout o) = .ok none →
      parse_default_outputs o d = .ok .ERROR_OUTPUT_STDOUT_MISSING) ∧
    ((∃ x, readFile d FILENAME_STDERR = .ok x) →
      (∃ c, readFile d (effective_stdout o) = .ok (some c)) →
      readFile d FILENAME_STATUS = .ok none →
      parse_default_outputs o d = .ok .ERROR_OUTPUT_STATUS_MISSING) ∧
    ((∃ x, readFile d FILENAME_STDERR = .ok x) →
      (∃ c, readFile d (effective_stdout o) = .ok (some c)) →
      (∃ s, readFile d FILENAME_STATUS = .ok (some s) ∧ pyInt s = none) →
      parse_default_outputs o d = .ok .ERROR_OUTPUT_STATUS_INVALID) ∧
    ((∃ x, readFile d FILENAME_STDERR = .ok x) →
      (∃ c, readFile d (effective_stdout o) = .ok (some c)) →
      (∃ s n, readFile d FILENAME_STATUS = .ok (some s) ∧ pyInt s = some n ∧
        n ≠ 0) →
      parse_default_outputs o d = .ok .ERROR_COMMAND_FAILED) ∧
    ((∃ c, readFile d (effective_stdout o) = .ok (some c)) →
      (∃ s, readFile d FILENAME_STATUS = .ok (some s) ∧ pyInt s = some 0) →
      (∃ e, readFile d FILENAME_STDERR = .ok (some e) ∧ e ≠ "") →
      parse_default_outputs o d = .ok .ERROR_STDERR_NOT_EMPTY) := by
  refine ⟨?_, ?_, ?_, ?_, ?_, ?_⟩
  · rw [parse_default_outputs_eq]
    cases h1 : readFile d FILENAME_STDERR with
    | error e => simp [h1]
    | ok x =>
      cases h2 : readFile d (effective_stdout o) with
      | error e => simp [h2]
      | ok y =>
        cases y with
        | none => simp [h2]
        | some c =>
          cases h3 : readFile d FILENAME_STATUS with
          | error e => simp [h3]
          | ok z =>
            cases z with
            | none => simp [h3]
            | some t =>
              cases h4 : pyInt t with
              | none => simp [h2, h3, h4]
              | some n =>
                by_cases hn : n = 0
                · subst hn
                  simp only [ne_eq, not_true_eq_false, if_false]
                  cases x with
                  | none => simp [h1, h2, h3, h4]
                  | some e =>
                    by_cases he : e = ""
                    · subst he; simp [h1, h2, h3, h4]
                    · simp [h1, h2, h3, h4, he]
                · simp [h1, h2, h3, h4, hn]
  · rintro ⟨x, h1⟩ h2
    rw [parse_default_outputs_eq, h1, h2]
  · rintro ⟨x, h1⟩ ⟨c, h2⟩ h3
    rw [parse_default_outputs_eq, h1, h2, h3]
  · rintro ⟨x, h1⟩ ⟨c, h2⟩ ⟨s, h3, h4⟩
    rw [parse_default_outputs_eq, h1, h2, h3]
    simp [h4]
  · rintro ⟨x, h1⟩ ⟨c, h2⟩ ⟨s, n, h3, h4, h5⟩
    rw [parse_default_outputs_eq, h1, h2, h3]
    simp [h4, h5]
  · rintro ⟨c, h2⟩ ⟨s, h3, h4⟩ ⟨e, h1, h5⟩
    rw [parse_default_outputs_eq, h1, h2, h3]
    simp [h4, h5]

/-- Witness for C2: the success case and the stdout-missing case at
concrete retrieved directories. -/
theorem C2_witness :
    parse_default_outputs none ⟨[("stdout", "out"), ("status", "0")], []⟩ =
      .ok .success ∧
    parse_default_outputs none ⟨[("status", "0")], []⟩ =
      .ok .ERROR_OUTPUT_STDOUT_MISSING := by
  constructor
  · exact (C2_parse_default_outputs_characterization none
      ⟨[("stdout", "out"), ("status", "0")], []⟩).1.mpr
      ⟨⟨"out", rfl⟩, ⟨"0", rfl, rfl⟩, Or.inl rfl⟩
  · exact (C2_parse_default_outputs_characterization none
      ⟨[("status", "0")], []⟩).2.1 ⟨none, rfl⟩ rfl

/-! ## Lookup helpers and the prepare_filenames characterization -/

theorem alookup_cons_eq {α : Type} (k : String) (v : α) (l : List (String × α)) :
    alookup ((k, v) :: l) k = some v := by
  simp [alookup]

theorem alookup_cons_ne {α : Type} {k0 k : String} (v : α) (l : List (String × α))
    (h : k0 ≠ k) : alookup ((k0, v) :: l) k = alookup l k := by
  simp [alookup, List.find?_cons_of_neg, h]

/-- The filename prepare_filenames assigns to a SinglefileData key: the
target from the explicit map or the default, suffixed with the entropy
token when it collides with a reserved name. -/
def prepared_single_filename (reserved : List String) (entropy : String → String)
    (filenames : List (String × String)) (key : String) (fn : Option String) :
    String :=
  let target := single_file_target key fn (alookup filenames key)
  if reserved.contains target then target ++ "_" ++ entropy key else target

theorem prep_cons_singlefile_ok {reserved : List String} {entropy : String → String}
    {filenames : List (String × String)} (k0 : String) (fn0 : Option String)
    (c0 : String) {rest : List (String × ANode)}
    {m' : List (String × Option String)} {w' : List String}
    (hrest : prepare_filenames reserved entropy filenames rest = .ok (m', w')) :
    prepare_filenames reserved entropy filenames ((k0, .singlefile fn0 c0) :: rest) =
      .ok ((k0, some (prepared_single_filename reserved entropy filenames k0 fn0)) :: m',
        (if reserved.contains (single_file_target k0 fn0 (alookup filenames k0)) = true
         then [collisionWarning (single_file_target k0 fn0 (alookup filenames k0)) k0
            (single_file_target k0 fn0 (alookup filenames k0) ++ "_" ++ entropy k0)]
         else []) ++ w') := by
  have h0 : prepare_filenames reserved entropy filenames
      ((k0, .singlefile fn0 c0) :: rest) =
      (do
        let (m, w) ← prepare_filenames reserved entropy filenames rest
        Except.ok
          ((collisionStep reserved entropy k0
              (some (single_file_target k0 fn0 (alookup filenames k0)))).1 :: m,
            (collisionStep reserved entropy k0
              (some (single_file_target k0 fn0 (alookup filenames k0)))).2 ++ w)) := rfl
  rw [h0, hrest]
  by_cases hc : reserved.contains (single_file_target k0 fn0 (alookup filenames k0)) = true
  · have hm : single_file_target k0 fn0 (alookup filenames k0) ∈ reserved :=
      List.elem_iff.mp hc
    simp only [collisionStep, prepared_single_filename, hc, hm, if_pos, if_true]
    rfl
  · have hm : single_file_target k0 fn0 (alookup filenames k0) ∉ reserved :=
      fun h => hc (List.elem_iff.mpr h)
    simp only [collisionStep, prepared_single_filename, hc, hm, if_neg, if_false,
      Bool.false_eq_true, List.nil_append]
    rfl

theorem prep_cons_singlefile_err {reserved : List String} {entropy : String → String}
    {filenames : List (String × String)} (k0 : String) (fn0 : Option String)
    (c0 : String) {rest : List (String × ANode)} {e : String}
    (hrest : prepare_filenames reserved entropy filenames rest = .error e) :
    prepare_filenames reserved entropy filenames ((k0, .singlefile fn0 c0) :: rest) =
      .error e := by
  have h0 : prepare_filenames reserved entropy filenames
      ((k0, .singlefile fn0 c0) :: rest) =
      (do
        let (m, w) ← prepare_filenames reserved entropy filenames rest
        Except.ok
          ((collisionStep reserved entropy k0
              (some (single_file_target k0 fn0 (alookup filenames k0)))).1 :: m,
            (collisionStep reserved entropy k0
              (some (single_file_target k0 fn0 (alookup filenames k0)))).2 ++ w)) := rfl
  rw [h0, hrest]
  rfl

theorem prep_cons_folder_ok {reserved : List String} {entropy : String → String}
    {filenames : List (String × String)} {k0 : String}
    {tree : List (String × String)} {rest : List (String × ANode)}
    {m' : List (String × Option String)} {w' : List String}
    (hf : (firstLevelNames tree).any (fun f => reserved.contains f) = false)
    (hrest : prepare_filenames reserved entropy filenames rest = .ok (m', w')) :
    prepare_filenames reserved entropy filenames ((k0, .folder tree) :: rest) =
      .ok ((collisionStep reserved entropy k0 (alookup filenames k0)).1 :: m',
        (collisionStep reserved entropy k0 (alookup filenames k0)).2 ++ w') := by
  have h0 : prepare_filenames reserved entropy filenames ((k0, .folder tree) :: rest) =
      (if (firstLevelNames tree).any (fun f => reserved.contains f) = true then
        Except.error ("node " ++ k0 ++
          " contains a file which overlaps with a reserved output filename.")
      else do
        let (m, w) ← prepare_filenames reserved entropy filenames rest
        Except.ok ((collisionStep reserved entropy k0 (alookup filenames k0)).1 :: m,
          (collisionStep reserved entropy k0 (alookup filenames k0)).2 ++ w)) := rfl
  rw [h0]
  simp only [hf, Bool.false_eq_true, if_false]
  rw [hrest]
  rfl

theorem prep_cons_folder_err_reserved {reserved : List String}
    {entropy : String → String} {filenames : List (String × String)} {k0 : String}
    {tree : List (String × String)} {rest : List (String × ANode)}
    (hf : (firstLevelNames tree).any (fun f => reserved.contains f) = true) :
    prepare_filenames reserved entropy filenames ((k0, .folder tree) :: rest) =
      .error ("node " ++ k0 ++
        " contains a file which overlaps with a reserved output filename.") := by
  have h0 : prepare_filenames reserved entropy filenames ((k0, .folder tree) :: rest) =
      (if (firstLevelNames tree).any (fun f => reserved.contains f) = true then
        Except.error ("node " ++ k0 ++
          " contains a file which overlaps with a reserved output filename.")
      else do
        let (m, w) ← prepare_filenames reserved entropy filenames rest
        Except.ok ((collisionStep reserved entropy k0 (alookup filenames k0)).1 :: m,
          (collisionStep reserved entropy k0 (alookup filenames k0)).2 ++ w)) := rfl
  rw [h0]
  simp only [hf, if_true]

theorem prep_cons_folder_err_rest {reserved : List String}
    {entropy : String → String} {filenames : List (String × String)} {k0 : String}
    {tree : List (String × String)} {rest : List (String × ANode)} {e : String}
    (hf : (firstLevelNames tree).any (fun f => reserved.contains f) = false)
    (hrest : prepare_filenames reserved entropy filenames rest = .error e) :
    prepare_filenames reserved entropy filenames ((k0, .folder tree) :: rest) =
      .error e := by
  have h0 : prepare_filenames reserved entropy filenames ((k0, .folder tree) :: rest) =
      (if (firstLevelNames tree).any (fun f => reserved.contains f) = true then
        Except.error ("node " ++ k0 ++
          " contains a file which overlaps with a reserved output filename.")
      else do
        let (m, w) ← prepare_filenames reserved entropy filenames rest
        Except.ok ((collisionStep reserved entropy k0 (alookup filenames k0)).1 :: m,
          (collisionStep reserved entropy k0 (alookup filenames k0)).2 ++ w)) := rfl
  rw [h0]
  simp only [hf, Bool.false_eq_true, if_false]
  rw [hrest]
  rfl

theorem prep_cons_remote {reserved : List String} {entropy : String → String}
    {filenames : List (String × String)} {k0 p : String}
    {rest : List (String × ANode)} :
    prepare_filenames reserved entropy filenames ((k0, .remote p) :: rest) =
      prepare_filenames reserved entropy filenames rest := rfl

theorem prep_cons_scalar {reserved : List String} {entropy : String → String}
    {filenames : List (String × String)} {k0 v : String}
    {rest : List (String × ANode)} :
    prepare_filenames reserved entropy filenames ((k0, .scalar v) :: rest) =
      prepare_filenames reserved entropy filenames rest := rfl

theorem collisionStep_fst_key (reserved : List String) (entropy : String → String)
    (k0 : String) (fo : Option String) :
    ((collisionStep reserved entropy k0 fo).1).1 = k0 := by
  cases fo with
  | none => rfl
  | some f =>
    by_cases hc : reserved.contains f = true
    · have hm : f ∈ reserved := List.elem_iff.mp hc
      simp [collisionStep, hc, hm]
    · have hm : f ∉ reserved := fun h => hc (List.elem_iff.mpr h)
      simp [collisionStep, hc, hm]

theorem alookup_cons_fst_ne {α : Type} {k : String} (p : String × α)
    (l : List (String × α)) (h : p.1 ≠ k) :
    alookup (p :: l) k = alookup l k := by
  obtain ⟨a, b⟩ := p
  exact alookup_cons_ne _ _ h

theorem prepare_filenames_singlefile (reserved : List String)
    (entropy : String → String) (filenames : List (String × String)) :
    ∀ (nodes : List (String × ANode)) (m : List (String × Option String))
      (w : List String) (key : String) (fn : Option String) (content : String),
      prepare_filenames reserved entropy filenames nodes = .ok (m, w) →
      alookup nodes key = some (.singlefile fn content) →
      alookup m key =
        some (some (prepared_single_filename reserved entropy filenames key fn)) ∧
      (reserved.contains (single_file_target key fn (alookup filenames key)) = true →
        collisionWarning (single_file_target key fn (alookup filenames key)) key
          (single_file_target key fn (alookup filenames key) ++ "_" ++ entropy key)
          ∈ w) := by
  intro nodes
  induction nodes with
  | nil =>
    intro m w key fn content hp hk
    simp [alookup] at hk
  | cons hd rest ih =>
    obtain ⟨k0, n0⟩ := hd
    intro m w key fn content hp hk
    cases hrest : prepare_filenames reserved entropy filenames rest with
    | error e =>
      exfalso
      cases n0 with
      | singlefile fn0 c0 => rw [prep_cons_singlefile_err k0 fn0 c0 hrest] at hp; cases hp
      | folder tree =>
        cases hf : (firstLevelNames tree).any (fun f => reserved.contains f) with
        | true => rw [prep_cons_folder_err_reserved hf] at hp; cases hp
        | false => rw [prep_cons_folder_err_rest hf hrest] at hp; cases hp
      | remote p => rw [prep_cons_remote, hrest] at hp; cases hp
      | scalar v => rw [prep_cons_scalar, hrest] at hp; cases hp
    | ok mw =>
      obtain ⟨m', w'⟩ := mw
      by_cases hk0 : k0 = key
      · subst hk0
        rw [alookup_cons_eq] at hk
        injection hk with hk
        subst hk
        rw [prep_cons_singlefile_ok k0 fn content hrest] at hp
        injection hp with hp
        obtain ⟨hm, hw⟩ := Prod.mk.injEq .. |>.mp hp
        constructor
        · rw [← hm, alookup_cons_eq]
        · intro hc
          rw [← hw, hc]
          simp
      · rw [alookup_cons_ne _ _ hk0] at hk
        have hrec := ih m' w' key fn content hrest hk
        cases n0 with
        | singlefile fn0 c0 =>
          rw [prep_cons_singlefile_ok k0 fn0 c0 hrest] at hp
          injection hp with hp
          obtain ⟨hm, hw⟩ := Prod.mk.injEq .. |>.mp hp
          constructor
          · rw [← hm, alookup_cons_ne _ _ hk0]
            exact hrec.1
          · intro hc
            rw [← hw]
            exact List.mem_append_right _ (hrec.2 hc)
        | folder tree =>
          cases hf : (firstLevelNames tree).any (fun f => reserved.contains f) with
          | true => rw [prep_cons_folder_err_reserved hf] at hp; cases hp
          | false =>
            rw [prep_cons_folder_ok hf hrest] at hp
            injection hp with hp
            obtain ⟨hm, hw⟩ := Prod.mk.injEq .. |>.mp hp
            constructor
            · rw [← hm, alookup_cons_fst_ne _ _
                (by rw [collisionStep_fst_key]; exact hk0)]
              exact hrec.1
            · intro hc
              rw [← hw]
              exact List.mem_append_right _ (hrec.2 hc)
        | remote p =>
          rw [prep_cons_remote, hrest] at hp
          injection hp with hp
          obtain ⟨hm, hw⟩ := Prod.mk.injEq .. |>.mp hp
          rw [← hm, ← hw]
          exact hrec
        | scalar v =>
          rw [prep_cons_scalar, hrest] at hp
          injection hp with hp
          obtain ⟨hm, hw⟩ := Prod.mk.injEq .. |>.mp hp
          rw [← hm, ← hw]
          exact hrec

/-! ## C4: reserved-name collisions of input filenames -/

theorem validate_inputs_go_some (fs : String) :
    ∀ (l : List (String × String)) (key f : String), (key, f) ∈ l →
      (f = fs ∨ f = FILENAME_STDERR ∨ f = FILENAME_STATUS) →
      (validate_inputs_go fs l).isSome = true := by
  intro l
  induction l with
  | nil => intro key f h _; cases h
  | cons hd rest ih =>
    obtain ⟨k0, f0⟩ := hd
    intro key f hmem hres
    by_cases h0 : f0 = fs ∨ f0 = FILENAME_STDERR ∨ f0 = FILENAME_STATUS
    · unfold validate_inputs_go
      rw [if_pos h0]
      rfl
    · unfold validate_inputs_go
      rw [if_neg h0]
      rcases List.mem_cons.mp hmem with h | h
      · injection h with h1 h2
        subst h1; subst h2
        exact absurd hres h0
      · exact ih key f h hres

theorem validate_inputs_go_none (fs : String) :
    ∀ (l : List (String × String)),
      (∀ e ∈ l, ¬(e.2 = fs ∨ e.2 = FILENAME_STDERR ∨ e.2 = FILENAME_STATUS)) →
      validate_inputs_go fs l = none := by
  intro l
  induction l with
  | nil => intro _; rfl
  | cons hd rest ih =>
    obtain ⟨k0, f0⟩ := hd
    intro hall
    unfold validate_inputs_go
    rw [if_neg (hall (k0, f0) (by simp))]
    exact ih (fun e he => hall e (List.mem_cons_of_mem _ he))

/-- C4: a SinglefileData node whose implicit default filename (derived from
the intrinsic filename or the key, with no explicit filenames entry)
collides with a reserved name is renamed to the default plus an
underscore-separated random token, so it differs from every reserved name
(the code does not re-check, so freshness of the drawn token with respect
to the reserved set is a hypothesis, satisfied by the 20-hex-character
token except with negligible probability), and a warning naming the node is
recorded; whereas an explicit filenames entry equal to a reserved name
(status, stderr, or the effective stdout filename) makes validate_inputs
return an error, which fails the invocation before prepare_for_submission
runs and hence before any file is written. -/
theorem C4_reserved_collision_handling :
    (∀ (reserved : List String) (entropy : String → String)
        (filenames : List (String × String)) (nodes : List (String × ANode))
        (m : List (String × Option String)) (w : List String)
        (key : String) (fn : Option String) (content : String),
      prepare_filenames reserved entropy filenames nodes = .ok (m, w) →
      alookup nodes key = some (.singlefile fn content) →
      alookup filenames key = none →
      reserved.contains (default_single_filename key fn) = true →
      reserved.contains (default_single_filename key fn ++ "_" ++ entropy key) = false →
      (alookup m key =
        some (some (default_single_filename key fn ++ "_" ++ entropy key)) ∧
       (default_single_filename key fn ++ "_" ++ entropy key) ∉ reserved ∧
       collisionWarning (default_single_filename key fn) key
         (default_single_filename key fn ++ "_" ++ entropy key) ∈ w)) ∧
    (∀ (output_filename : Option String) (filenames : List (String × String))
        (key filename : String),
      (key, filename) ∈ filenames →
      (filename = output_filename.getD FILENAME_STDOUT ∨
       filename = FILENAME_STDERR ∨ filename = FILENAME_STATUS) →
      (validate_inputs output_filename filenames).isSome = true) := by
  constructor
  · intro reserved entropy filenames nodes m w key fn content hp hk hexp hcol hfresh
    have htarget : single_file_target key fn (alookup filenames key) =
        default_single_filename key fn := by
      rw [hexp]; rfl
    have hmain := prepare_filenames_singlefile reserved entropy filenames nodes
      m w key fn content hp hk
    rw [htarget] at hmain
    refine ⟨?_, ?_, hmain.2 hcol⟩
    · rw [hmain.1]
      unfold prepared_single_filename
      rw [htarget, if_pos hcol]
    · intro hmem
      have hc : reserved.contains
          (default_single_filename key fn ++ "_" ++ entropy key) = true :=
        List.elem_iff.mpr hmem
      rw [hc] at hfresh
      simp at hfresh
  · intro output_filename filenames key filename hmem hres
    unfold validate_inputs
    exact validate_inputs_go_some _ filenames key filename hmem hres

/-- Witness for C4: a node keyed by an intrinsic filename equal to stdout
is renamed with the injected token and warned about; an explicit filenames
entry equal to status is rejected by validate_inputs. -/
theorem C4_witness :
    alookup [("key", some ("stdout_abcdef" : String))] "key" =
      some (some "stdout_abcdef") ∧
    "stdout_abcdef" ∉ (["stdout", "stderr", "status"] : List String) ∧
    (validate_inputs none [("bad", "status")]).isSome = true := by
  have ha := C4_reserved_collision_handling.1 ["stdout", "stderr", "status"]
    (fun _ => "abcdef") [] [("key", ANode.singlefile (some "stdout") "c")]
    [("key", some "stdout_abcdef")]
    [collisionWarning "stdout" "key" "stdout_abcdef"]
    "key" (some "stdout") "c" rfl rfl rfl (by decide) (by decide)
  have hb := C4_reserved_collision_handling.2 none [("bad", "status")]
    "bad" "status" (by simp) (Or.inr (Or.inr rfl))
  exact ⟨ha.1, ha.2.1, hb⟩

/-! ## C10: two keys landing on the same finalized filename -/

theorem stage_cons_go {prepared : List (String × Option String)}
    {processed : List String} (k0 : String) (n0 : ANode)
    {rest : List (String × ANode)} {w0 ws : List (String × String)}
    (hk : processed.contains k0 = false)
    (h1 : stageOne prepared k0 n0 = .ok w0)
    (hrest : stageUnprocessed prepared processed rest = .ok ws) :
    stageUnprocessed prepared processed ((k0, n0) :: rest) = .ok (w0 ++ ws) := by
  have h0 : stageUnprocessed prepared processed ((k0, n0) :: rest) =
      (if processed.contains k0 = true then
        stageUnprocessed prepared processed rest
      else do
        let w ← stageOne prepared k0 n0
        let wrest ← stageUnprocessed prepared processed rest
        Except.ok (w ++ wrest)) := rfl
  rw [h0, if_neg (show ¬ (processed.contains k0 = true) from
    fun hc => by rw [hc] at hk; exact absurd hk (by decide)), h1, hrest]
  rfl

/-- C10: when two distinct node keys finalize to the same non-reserved
relative filename, validation accepts the inputs, staging succeeds with no
warning, both contents are written to that path in order, and the file
finally holds the content of the key staged last. -/
theorem C10_duplicate_target_last_writer_wins
    (output_filename : Option String) (entropy : String → String)
    (filenames : List (String × String)) (k1 k2 F c1 c2 : String)
    (fn1 fn2 : Option String)
    (hk : k1 ≠ k2)
    (h1 : single_file_target k1 fn1 (alookup filenames k1) = F)
    (h2 : single_file_target k2 fn2 (alookup filenames k2) = F)
    (hF : (filenames_reserved output_filename).contains F = false)
    (hfn : ∀ e ∈ filenames, ¬(e.2 = output_filename.getD FILENAME_STDOUT ∨
      e.2 = FILENAME_STDERR ∨ e.2 = FILENAME_STATUS)) :
    validate_inputs output_filename filenames = none ∧
    process_arguments_and_nodes (filenames_reserved output_filename) entropy
        [(k1, .singlefile fn1 c1), (k2, .singlefile fn2 c2)] filenames [] =
      .ok ([], [(F, c2), (F, c1)], []) ∧
    readFS [(F, c2), (F, c1)] F = some c2 := by
  refine ⟨validate_inputs_go_none _ filenames hfn, ?_, by simp [readFS]⟩
  have hp2 : prepare_filenames (filenames_reserved output_filename) entropy
      filenames [(k2, ANode.singlefile fn2 c2)] = .ok ([(k2, some F)], []) := by
    rw [prep_cons_singlefile_ok k2 fn2 c2
      (show prepare_filenames (filenames_reserved output_filename) entropy
        filenames [] = .ok ([], []) from rfl)]
    simp only [prepared_single_filename]
    rw [h2, hF]
    simp
  have hp : prepare_filenames (filenames_reserved output_filename) entropy
      filenames [(k1, ANode.singlefile fn1 c1), (k2, ANode.singlefile fn2 c2)] =
      .ok ([(k1, some F), (k2, some F)], []) := by
    rw [prep_cons_singlefile_ok k1 fn1 c1 hp2]
    simp only [prepared_single_filename]
    rw [h1, hF]
    simp
  have ha1 : alookup [(k1, (some F : Option String)), (k2, some F)] k1 =
      some (some F) := alookup_cons_eq _ _ _
  have ha2 : alookup [(k1, (some F : Option String)), (k2, some F)] k2 =
      some (some F) := by
    rw [alookup_cons_ne _ _ hk, alookup_cons_eq]
  have hs1 : stageOne [(k1, (some F : Option String)), (k2, some F)] k1
      (ANode.singlefile fn1 c1) = .ok [(F, c1)] := by
    unfold stageOne
    rw [ha1]
  have hs2 : stageOne [(k1, (some F : Option String)), (k2, some F)] k2
      (ANode.singlefile fn2 c2) = .ok [(F, c2)] := by
    unfold stageOne
    rw [ha2]
  have t2 := stage_cons_go k2 (ANode.singlefile fn2 c2)
    (show ([] : List String).contains k2 = false from rfl) hs2
    (show stageUnprocessed [(k1, (some F : Option String)), (k2, some F)] [] [] =
      .ok [] from rfl)
  have t1 := stage_cons_go k1 (ANode.singlefile fn1 c1)
    (show ([] : List String).contains k1 = false from rfl) hs1 t2
  have hstage : stageUnprocessed [(k1, (some F : Option String)), (k2, some F)] []
      [(k1, ANode.singlefile fn1 c1), (k2, ANode.singlefile fn2 c2)] =
      .ok [(F, c1), (F, c2)] := by
    rw [t1]
    rfl
  have hkey : process_arguments_and_nodes (filenames_reserved output_filename)
      entropy [(k1, ANode.singlefile fn1 c1), (k2, ANode.singlefile fn2 c2)]
      filenames [] =
      (do
        let ws2 ← stageUnprocessed [(k1, (some F : Option String)), (k2, some F)] []
          [(k1, ANode.singlefile fn1 c1), (k2, ANode.singlefile fn2 c2)]
        Except.ok (([] : List String),
          applyWrites (([] : List (String × String)) ++ ws2) [],
          ([] : List String))) := by
    unfold process_arguments_and_nodes
    rw [hp]
    rfl
  rw [hkey, hstage]
  rfl

/-- Witness for C10: two nodes with intrinsic filename f and different
contents; the staged file holds the content of the second. -/
theorem C10_witness :
    process_arguments_and_nodes (filenames_reserved none) (fun _ => "t")
        [("a", .singlefile (some "f") "c1"), ("b", .singlefile (some "f") "c2")]
        [] [] = .ok ([], [("f", "c2"), ("f", "c1")], []) ∧
    readFS [("f", "c2"), ("f", "c1")] "f" = some "c2" := by
  have h := C10_duplicate_target_last_writer_wins none (fun _ => "t") []
    "a" "b" "f" "c1" "c2" (some "f") (some "f") (by decide) rfl rfl (by decide)
    (by intro e he; cases he)
  exact ⟨h.2.1, h.2.2⟩

/-! ## Placeholder-token lemmas: arguments of the shape pre{key}suf -/

/-- Characters that neither open nor close a replacement field. -/
def braceFree (l : List Char) : Prop := ∀ c ∈ l, c ≠ '{' ∧ c ≠ '}'

/-- Characters legal in a simple field name. -/
def keyOk (l : List Char) : Prop :=
  ∀ c ∈ l, c ≠ '{' ∧ c ≠ '}' ∧ c ≠ ':' ∧ c ≠ '!'

theorem fnAux_nobrace : ∀ (l rest : List Char), braceFree l →
    fieldNamesAux none (l ++ rest) = fieldNamesAux none rest := by
  intro l
  induction l with
  | nil => intro rest _; rfl
  | cons c l' ih =>
    intro rest h
    have hc := h c (by simp)
    show fieldNamesAux none (c :: (l' ++ rest)) = fieldNamesAux none rest
    have hstep : fieldNamesAux none (c :: (l' ++ rest)) =
        fieldNamesAux none (l' ++ rest) := by
      simp [fieldNamesAux, hc.1, hc.2]
    rw [hstep]
    exact ih rest (fun d hd => h d (List.mem_cons_of_mem _ hd))

theorem fnAux_nobrace_nil (l : List Char) (h : braceFree l) :
    fieldNamesAux none l = .ok [] := by
  have := fnAux_nobrace l [] h
  rwa [List.append_nil] at this

theorem fnAux_field : ∀ (key' acc suf : List Char), keyOk key' → braceFree suf →
    fieldNamesAux (some (acc, false)) (key' ++ '}' :: suf) =
      .ok (if (acc.reverse ++ key').isEmpty then []
           else [String.mk (acc.reverse ++ key')]) := by
  intro key'
  induction key' with
  | nil =>
    intro acc suf _ hsuf
    show fieldNamesAux (some (acc, false)) ('}' :: suf) = _
    have hclose : fieldNamesAux (some (acc, false)) ('}' :: suf) =
        (do
          let names ← fieldNamesAux none suf
          Except.ok (if acc.isEmpty then names
            else String.mk acc.reverse :: names)) := by
      simp [fieldNamesAux]
    rw [hclose, fnAux_nobrace_nil suf hsuf, List.append_nil]
    by_cases ha : acc = []
    · subst ha; rfl
    · have h1 : acc.isEmpty = false := by simpa [List.isEmpty_iff] using ha
      have h2 : acc.reverse.isEmpty = false := by
        simp [List.isEmpty_iff, ha]
      simp only [h1, h2, Bool.false_eq_true, if_false]
      rfl
  | cons c key'' ih =>
    intro acc suf hk hsuf
    have hc := hk c (by simp)
    show fieldNamesAux (some (acc, false)) (c :: (key'' ++ '}' :: suf)) = _
    have hstep : fieldNamesAux (some (acc, false)) (c :: (key'' ++ '}' :: suf)) =
        fieldNamesAux (some (c :: acc, false)) (key'' ++ '}' :: suf) := by
      simp [fieldNamesAux, hc.2.1, hc.2.2.1, hc.2.2.2]
    rw [hstep, ih (c :: acc) suf (fun d hd => hk d (List.mem_cons_of_mem _ hd)) hsuf]
    have hsh : ((c :: acc).reverse ++ key'' : List Char) =
        acc.reverse ++ (c :: key'') := by simp
    rw [hsh]

theorem fieldNames_token (pre key suf : List Char) (hpre : braceFree pre)
    (hkey : keyOk key) (hne : key ≠ []) (hsuf : braceFree suf) :
    fieldNames (String.mk (pre ++ '{' :: (key ++ '}' :: suf))) =
      .ok [String.mk key] := by
  unfold fieldNames
  show fieldNamesAux none (pre ++ '{' :: (key ++ '}' :: suf)) = _
  rw [fnAux_nobrace pre _ hpre]
  cases key with
  | nil => exact absurd rfl hne
  | cons k0 key' =>
    have hk0 := hkey k0 (by simp)
    show fieldNamesAux none ('{' :: k0 :: (key' ++ '}' :: suf)) = _
    have hentry : fieldNamesAux none ('{' :: k0 :: (key' ++ '}' :: suf)) =
        fieldNamesAux (some ([], false)) (k0 :: (key' ++ '}' :: suf)) := by
      simp [fieldNamesAux, hk0.1]
    rw [hentry]
    have := fnAux_field (k0 :: key') [] suf hkey hsuf
    rw [show ((k0 :: key') ++ '}' :: suf : List Char) =
      k0 :: (key' ++ '}' :: suf) from rfl] at this
    rw [this]
    simp

theorem pfAux_nobrace (m : String → Option String) :
    ∀ (l rest : List Char), braceFree l →
      pyFormatAux m none (l ++ rest) =
        (do
          let r ← pyFormatAux m none rest
          Except.ok (l ++ r)) := by
  intro l
  induction l with
  | nil =>
    intro rest _
    show pyFormatAux m none rest = _
    cases h : pyFormatAux m none rest with
    | error e => rfl
    | ok r => rfl
  | cons c l' ih =>
    intro rest h
    have hc := h c (by simp)
    show pyFormatAux m none (c :: (l' ++ rest)) = _
    have hstep : pyFormatAux m none (c :: (l' ++ rest)) =
        (do
          let r ← pyFormatAux m none (l' ++ rest)
          Except.ok (c :: r)) := by
      simp [pyFormatAux, hc.1, hc.2]
    rw [hstep, ih rest (fun d hd => h d (List.mem_cons_of_mem _ hd))]
    cases hr : pyFormatAux m none rest with
    | error e => rfl
    | ok r => rfl

theorem pfAux_nobrace_nil (m : String → Option String) (l : List Char)
    (h : braceFree l) : pyFormatAux m none l = .ok l := by
  have h1 := pfAux_nobrace m l [] h
  rw [List.append_nil] at h1
  have h0 : (do
      let r ← pyFormatAux m none ([] : List Char)
      Except.ok (l ++ r)) = Except.ok (l ++ ([] : List Char)) := rfl
  rw [h1, h0, List.append_nil]

theorem pfAux_field (m : String → Option String) :
    ∀ (key' acc suf : List Char), (∀ c ∈ key', c ≠ '}') →
      pyFormatAux m (some acc) (key' ++ '}' :: suf) =
        (match m (String.mk (acc.reverse ++ key')) with
         | some v =>
            do
              let l ← pyFormatAux m none suf
              Except.ok (v.data ++ l)
         | none => .error ("KeyError: " ++ String.mk (acc.reverse ++ key'))) := by
  intro key'
  induction key' with
  | nil =>
    intro acc suf _
    show pyFormatAux m (some acc) ('}' :: suf) = _
    have hclose : pyFormatAux m (some acc) ('}' :: suf) =
        (match m (String.mk acc.reverse) with
         | some v =>
            do
              let l ← pyFormatAux m none suf
              Except.ok (v.data ++ l)
         | none => .error ("KeyError: " ++ String.mk acc.reverse)) := by
      simp [pyFormatAux]
    rw [hclose, show (acc.reverse ++ ([] : List Char)) = acc.reverse from
      List.append_nil _]
  | cons c key'' ih =>
    intro acc suf hk
    have hc := hk c (by simp)
    show pyFormatAux m (some acc) (c :: (key'' ++ '}' :: suf)) = _
    have hstep : pyFormatAux m (some acc) (c :: (key'' ++ '}' :: suf)) =
        pyFormatAux m (some (c :: acc)) (key'' ++ '}' :: suf) := by
      simp [pyFormatAux, hc]
    rw [hstep, ih (c :: acc) suf (fun d hd => hk d (List.mem_cons_of_mem _ hd))]
    have hsh : ((c :: acc).reverse ++ key'' : List Char) =
        acc.reverse ++ (c :: key'') := by simp
    rw [hsh]

theorem pyFormat_token (m : String → Option String) (pre key suf : List Char)
    (v : String) (hpre : braceFree pre) (hkey : keyOk key) (hne : key ≠ [])
    (hsuf : braceFree suf) (hv : m (String.mk key) = some v) :
    pyFormat m (String.mk (pre ++ '{' :: (key ++ '}' :: suf))) =
      .ok (String.mk (pre ++ (v.data ++ suf))) := by
  unfold pyFormat
  show (do
      let l ← pyFormatAux m none (pre ++ '{' :: (key ++ '}' :: suf))
      Except.ok (String.mk l)) = _
  rw [pfAux_nobrace m pre _ hpre]
  cases key with
  | nil => exact absurd rfl hne
  | cons k0 key' =>
    have hk0 := hkey k0 (by simp)
    have hentry : pyFormatAux m none ('{' :: ((k0 :: key') ++ '}' :: suf)) =
        pyFormatAux m (some []) (k0 :: (key' ++ '}' :: suf)) := by
      show pyFormatAux m none ('{' :: k0 :: (key' ++ '}' :: suf)) = _
      simp [pyFormatAux, hk0.1]
    rw [hentry]
    have hf := pfAux_field m (k0 :: key') [] suf
      (fun c hc => (hkey c hc).2.1)
    rw [show ((k0 :: key') ++ '}' :: suf : List Char) =
      k0 :: (key' ++ '}' :: suf) from rfl] at hf
    rw [hf]
    have hrev : (([] : List Char).reverse ++ (k0 :: key') : List Char) =
        k0 :: key' := by simp
    rw [hrev, hv]
    rw [pfAux_nobrace_nil m suf hsuf]
    rfl

/-! ## Inversion lemmas for the argument loop and the trailing stage -/

theorem except_bind_error {α β : Type} (e : String)
    (f : α → Except String β) :
    ((Except.error e : Except String α) >>= f) = .error e := rfl

theorem except_bind_ok {α β : Type} (x : α) (f : α → Except String β) :
    ((Except.ok x : Except String α) >>= f) = f x := rfl

theorem pa_err {nodes : List (String × ANode)}
    {prepared : List (String × Option String)} {tok e : String}
    (hfn : fieldNames tok = .error e) :
    processArgument nodes prepared tok = .error e := by
  unfold processArgument
  rw [hfn]
  rfl

theorem pa_empty_eq {nodes : List (String × ANode)}
    {prepared : List (String × Option String)} {tok : String}
    (hfn : fieldNames tok = .ok []) :
    processArgument nodes prepared tok =
      (do
        let a ← pyFormat (fun _ => none) tok
        Except.ok (a, (none : Option String), ([] : List (String × String)))) := by
  unfold processArgument
  rw [hfn]
  rfl

theorem pa_single {nodes : List (String × ANode)}
    {prepared : List (String × Option String)} {tok p : String}
    (hfn : fieldNames tok = .ok [p]) :
    processArgument nodes prepared tok =
      processPlaceholder nodes prepared p tok := by
  unfold processArgument
  rw [hfn]
  rfl

theorem pa_multi_eq {nodes : List (String × ANode)}
    {prepared : List (String × Option String)} {tok p q : String}
    {r : List String} (hfn : fieldNames tok = .ok (p :: q :: r)) :
    processArgument nodes prepared tok =
      .error ("ValueError: argument " ++ tok ++
        " is invalid as it contains more than one placeholder.") := by
  unfold processArgument
  rw [hfn]
  rfl

theorem pp_none {nodes : List (String × ANode)}
    {prepared : List (String × Option String)} {p tok : String}
    (h : alookup nodes p = none) :
    processPlaceholder nodes prepared p tok =
      .error ("ValueError: argument placeholder " ++ p ++
        " not specified in nodes.") := by
  unfold processPlaceholder
  rw [h]

theorem pp_some {nodes : List (String × ANode)}
    {prepared : List (String × Option String)} {p tok : String} {n : ANode}
    (h : alookup nodes p = some n) :
    processPlaceholder nodes prepared p tok =
      processNode prepared p tok n := by
  unfold processPlaceholder
  rw [h]

theorem pn_singlefile_eq {prepared : List (String × Option String)}
    {p tok f : String} (fn : Option String) (content : String)
    (hprep : alookup prepared p = some (some f)) :
    processNode prepared p tok (.singlefile fn content) =
      (do
        let a ← pyFormat (fun n => if n = p then some f else none) tok
        Except.ok (a, some p, [(f, content)])) := by
  unfold processNode
  rw [hprep]

theorem pn_folder_eq {prepared : List (String × Option String)}
    {p tok : String} {fo : Option String} (tree : List (String × String))
    (hprep : alookup prepared p = some fo) :
    processNode prepared p tok (.folder tree) =
      (do
        let a ← pyFormat
          (fun n => if n = p then some (folderSub p fo) else none) tok
        Except.ok (a, some p, folderWrites fo tree)) := by
  unfold processNode
  rw [hprep]

theorem pn_singlefile_none {prepared : List (String × Option String)}
    {p tok : String} (fn : Option String) (content : String)
    (hprep : alookup prepared p = none) :
    processNode prepared p tok (.singlefile fn content) =
      .error "KeyError: prepared_filenames" := by
  unfold processNode
  rw [hprep]

theorem pn_singlefile_some_none {prepared : List (String × Option String)}
    {p tok : String} (fn : Option String) (content : String)
    (hprep : alookup prepared p = some none) :
    processNode prepared p tok (.singlefile fn content) =
      .error "KeyError: prepared_filenames" := by
  unfold processNode
  rw [hprep]

theorem pn_folder_none {prepared : List (String × Option String)}
    {p tok : String} (tree : List (String × String))
    (hprep : alookup prepared p = none) :
    processNode prepared p tok (.folder tree) =
      .error "KeyError: prepared_filenames" := by
  unfold processNode
  rw [hprep]

theorem processNode_ok_inv {prepared : List (String × Option String)}
    {p tok : String} {n : ANode} {s : String} {u : Option String}
    {w : List (String × String)}
    (h : processNode prepared p tok n = .ok (s, u, w)) :
    u = some p ∧ w = nodeWrites prepared p n := by
  cases n with
  | singlefile fn content =>
    cases hprep : alookup prepared p with
    | none => rw [pn_singlefile_none fn content hprep] at h; cases h
    | some fo =>
      cases fo with
      | none => rw [pn_singlefile_some_none fn content hprep] at h; cases h
      | some f =>
        rw [pn_singlefile_eq fn content hprep] at h
        cases hfmt : pyFormat (fun n => if n = p then some f else none) tok with
        | error e => rw [hfmt, except_bind_error] at h; cases h
        | ok a =>
          rw [hfmt, except_bind_ok] at h
          injection h with h
          obtain ⟨hs, hrest⟩ := Prod.mk.injEq .. |>.mp h
          obtain ⟨hu, hw⟩ := Prod.mk.injEq .. |>.mp hrest
          refine ⟨hu.symm, ?_⟩
          rw [← hw]
          unfold nodeWrites
          rw [hprep]
  | folder tree =>
    cases hprep : alookup prepared p with
    | none => rw [pn_folder_none tree hprep] at h; cases h
    | some fo =>
      rw [pn_folder_eq tree hprep] at h
      cases hfmt : pyFormat
          (fun n => if n = p then some (folderSub p fo) else none) tok with
      | error e => rw [hfmt, except_bind_error] at h; cases h
      | ok a =>
        rw [hfmt, except_bind_ok] at h
        injection h with h
        obtain ⟨hs, hrest⟩ := Prod.mk.injEq .. |>.mp h
        obtain ⟨hu, hw⟩ := Prod.mk.injEq .. |>.mp hrest
        refine ⟨hu.symm, ?_⟩
        rw [← hw]
        unfold nodeWrites
        rw [hprep]
  | remote rp => cases h
  | scalar v =>
    have hs0 : processNode prepared p tok (.scalar v) =
        (do
          let a ← pyFormat (fun n => if n = p then some v else none) tok
          Except.ok (a, some p, ([] : List (String × String)))) := rfl
    rw [hs0] at h
    cases hfmt : pyFormat (fun n => if n = p then some v else none) tok with
    | error e => rw [hfmt, except_bind_error] at h; cases h
    | ok a =>
      rw [hfmt, except_bind_ok] at h
      injection h with h
      obtain ⟨hs, hrest⟩ := Prod.mk.injEq .. |>.mp h
      obtain ⟨hu, hw⟩ := Prod.mk.injEq .. |>.mp hrest
      exact ⟨hu.symm, hw.symm⟩

theorem processArgument_ok_inv {nodes : List (String × ANode)}
    {prepared : List (String × Option String)} {tok s : String}
    {u : Option String} {w : List (String × String)}
    (h : processArgument nodes prepared tok = .ok (s, u, w)) :
    (fieldNames tok = .ok [] ∧ u = none ∧ w = []) ∨
    (∃ p n, fieldNames tok = .ok [p] ∧ u = some p ∧
      alookup nodes p = some n ∧ w = nodeWrites prepared p n) := by
  cases hfn : fieldNames tok with
  | error e => rw [pa_err hfn] at h; cases h
  | ok fns =>
    match fns, hfn with
    | [], hfn =>
      left
      rw [pa_empty_eq hfn] at h
      cases hfmt : pyFormat (fun _ => none) tok with
      | error e => rw [hfmt, except_bind_error] at h; cases h
      | ok a =>
        rw [hfmt, except_bind_ok] at h
        injection h with h
        obtain ⟨hs, hrest⟩ := Prod.mk.injEq .. |>.mp h
        obtain ⟨hu, hw⟩ := Prod.mk.injEq .. |>.mp hrest
        exact ⟨rfl, hu.symm, hw.symm⟩
    | [p], hfn =>
      right
      rw [pa_single hfn] at h
      cases hnode : alookup nodes p with
      | none => rw [pp_none hnode] at h; cases h
      | some n =>
        rw [pp_some hnode] at h
        obtain ⟨hu, hw⟩ := processNode_ok_inv h
        exact ⟨p, n, rfl, hu, hnode, hw⟩
    | p :: q :: r, hfn =>
      rw [pa_multi_eq hfn] at h
      cases h

theorem processLoop_cons_eq {nodes : List (String × ANode)}
    {prepared : List (String × Option String)} {tok : String}
    {rest : List String} :
    processLoop nodes prepared (tok :: rest) =
      (do
        let (a, used, w) ← processArgument nodes prepared tok
        let (arest, urest, wrest) ← processLoop nodes prepared rest
        Except.ok (a :: arest, consOpt used urest, w ++ wrest)) := rfl

theorem processLoop_ok_inv {nodes : List (String × ANode)}
    {prepared : List (String × Option String)} {tok : String}
    {rest : List String} {out used : List String} {ws : List (String × String)}
    (h : processLoop nodes prepared (tok :: rest) = .ok (out, used, ws)) :
    ∃ a u w arest urest wrest,
      processArgument nodes prepared tok = .ok (a, u, w) ∧
      processLoop nodes prepared rest = .ok (arest, urest, wrest) ∧
      out = a :: arest ∧ used = consOpt u urest ∧ ws = w ++ wrest := by
  rw [processLoop_cons_eq] at h
  cases h1 : processArgument nodes prepared tok with
  | error e => rw [h1, except_bind_error] at h; cases h
  | ok x =>
    obtain ⟨a, u, w⟩ := x
    rw [h1, except_bind_ok] at h
    have hA : (do
        let y ← processLoop nodes prepared rest
        match y with
        | (arest, urest, wrest) =>
          Except.ok (a :: arest, consOpt u urest, w ++ wrest) :
        Except String (List String × List String × List (String × String))) =
        .ok (out, used, ws) := h
    cases h2 : processLoop nodes prepared rest with
    | error e => rw [h2, except_bind_error] at hA; cases hA
    | ok y =>
      obtain ⟨arest, urest, wrest⟩ := y
      rw [h2, except_bind_ok] at hA
      have hB : (Except.ok (a :: arest, consOpt u urest, w ++ wrest) :
          Except String (List String × List String × List (String × String))) =
          .ok (out, used, ws) := hA
      injection hB with hB
      obtain ⟨ho, hrest2⟩ := Prod.mk.injEq .. |>.mp hB
      obtain ⟨hu, hw⟩ := Prod.mk.injEq .. |>.mp hrest2
      exact ⟨a, u, w, arest, urest, wrest, rfl, rfl, ho.symm, hu.symm, hw.symm⟩

theorem processLoop_nil_inv {nodes : List (String × ANode)}
    {prepared : List (String × Option String)} {out used : List String}
    {ws : List (String × String)}
    (h : processLoop nodes prepared [] = .ok (out, used, ws)) :
    out = [] ∧ used = [] ∧ ws = [] := by
  have h' : (Except.ok (([] : List String), ([] : List String),
      ([] : List (String × String))) :
      Except String (List String × List String × List (String × String))) =
      .ok (out, used, ws) := h
  injection h' with h'
  obtain ⟨ho, hrest2⟩ := Prod.mk.injEq .. |>.mp h'
  obtain ⟨hu, hw⟩ := Prod.mk.injEq .. |>.mp hrest2
  exact ⟨ho.symm, hu.symm, hw.symm⟩

theorem processLoop_get {nodes : List (String × ANode)}
    {prepared : List (String × Option String)} :
    ∀ (args : List String) (out used : List String) (ws : List (String × String)),
      processLoop nodes prepared args = .ok (out, used, ws) →
      ∀ (i : Nat) (tok : String), args.get? i = some tok →
      ∃ s u w, processArgument nodes prepared tok = .ok (s, u, w) ∧
        out.get? i = some s ∧ ∀ e ∈ w, e ∈ ws := by
  intro args
  induction args with
  | nil => intro out used ws _ i tok htok; simp at htok
  | cons a0 rest ih =>
    intro out used ws h i tok htok
    obtain ⟨a, u, w, arest, urest, wrest, h1, h2, ho, _, hw⟩ := processLoop_ok_inv h
    cases i with
    | zero =>
      simp only [List.get?_cons_zero, Option.some.injEq] at htok
      subst htok
      exact ⟨a, u, w, h1, by rw [ho]; rfl, fun e he => by
        rw [hw]; exact List.mem_append_left _ he⟩
    | succ i' =>
      simp only [List.get?_cons_succ] at htok
      obtain ⟨s, u', w', hh1, hh2, hh3⟩ := ih arest urest wrest h2 i' tok htok
      refine ⟨s, u', w', hh1, ?_, fun e he => by
        rw [hw]; exact List.mem_append_right _ (hh3 e he)⟩
      rw [ho]
      simpa using hh2

theorem processLoop_writes {nodes : List (String × ANode)}
    {prepared : List (String × Option String)} :
    ∀ (args : List String) (out used : List String) (ws : List (String × String)),
      processLoop nodes prepared args = .ok (out, used, ws) →
      ∀ e ∈ ws, ∃ p n, alookup nodes p = some n ∧ e ∈ nodeWrites prepared p n ∧
        ∃ tok ∈ args, fieldNames tok = .ok [p] := by
  intro args
  induction args with
  | nil =>
    intro out used ws h e he
    obtain ⟨_, _, hw⟩ := processLoop_nil_inv h
    rw [hw] at he
    cases he
  | cons a0 rest ih =>
    intro out used ws h e he
    obtain ⟨a, u, w, arest, urest, wrest, h1, h2, _, _, hw⟩ := processLoop_ok_inv h
    rw [hw] at he
    rcases List.mem_append.mp he with he | he
    · rcases processArgument_ok_inv h1 with ⟨_, _, hwnil⟩ | ⟨p, n, hfn, _, hnode, hww⟩
      · rw [hwnil] at he; cases he
      · exact ⟨p, n, hnode, hww ▸ he, a0, by simp, hfn⟩
    · obtain ⟨p, n, hnode, hwn, tok, htok, hfn⟩ := ih arest urest wrest h2 e he
      exact ⟨p, n, hnode, hwn, tok, List.mem_cons_of_mem _ htok, hfn⟩

theorem processLoop_used {nodes : List (String × ANode)}
    {prepared : List (String × Option String)} :
    ∀ (args : List String) (out used : List String) (ws : List (String × String)),
      processLoop nodes prepared args = .ok (out, used, ws) →
      ∀ u ∈ used, ∃ tok ∈ args, fieldNames tok = .ok [u] := by
  intro args
  induction args with
  | nil =>
    intro out used ws h u hu
    obtain ⟨_, hu', _⟩ := processLoop_nil_inv h
    rw [hu'] at hu
    cases hu
  | cons a0 rest ih =>
    intro out used ws h u hu
    obtain ⟨a, u0, w, arest, urest, wrest, h1, h2, _, husd, _⟩ := processLoop_ok_inv h
    rw [husd] at hu
    cases u0 with
    | none =>
      obtain ⟨tok, htok, hfn⟩ := ih arest urest wrest h2 u hu
      exact ⟨tok, List.mem_cons_of_mem _ htok, hfn⟩
    | some p =>
      rcases List.mem_cons.mp hu with hup | hup
      · subst hup
        rcases processArgument_ok_inv h1 with ⟨_, hun, _⟩ | ⟨p', n, hfn, hus, _, _⟩
        · cases hun
        · injection hus with hus
          subst hus
          exact ⟨a0, by simp, hfn⟩
      · obtain ⟨tok, htok, hfn⟩ := ih arest urest wrest h2 u hup
        exact ⟨tok, List.mem_cons_of_mem _ htok, hfn⟩

theorem stageOne_ok_writes {prepared : List (String × Option String)}
    {k : String} {n : ANode} {w : List (String × String)}
    (h : stageOne prepared k n = .ok w) : w = nodeWrites prepared k n := by
  cases n with
  | singlefile fn c =>
    have h0 : stageOne prepared k (.singlefile fn c) =
        (match alookup prepared k with
         | some (some f) => Except.ok [(f, c)]
         | _ => Except.error "KeyError: prepared_filenames") := rfl
    rw [h0] at h
    unfold nodeWrites
    cases hprep : alookup prepared k with
    | none => rw [hprep] at h; cases h
    | some fo =>
      cases fo with
      | none => rw [hprep] at h; cases h
      | some f =>
        rw [hprep] at h
        injection h with h
        exact h.symm
  | folder tree =>
    have h0 : stageOne prepared k (.folder tree) =
        (match alookup prepared k with
         | some fo => Except.ok (folderWrites fo tree)
         | none => Except.error "KeyError: prepared_filenames") := rfl
    rw [h0] at h
    unfold nodeWrites
    cases hprep : alookup prepared k with
    | none => rw [hprep] at h; cases h
    | some fo =>
      rw [hprep] at h
      injection h with h
      exact h.symm
  | remote rp =>
    injection h with h
    exact h.symm
  | scalar v =>
    injection h with h
    exact h.symm

theorem stage_cons_inv {prepared : List (String × Option String)}
    {processed : List String} {k0 : String} {n0 : ANode}
    {rest : List (String × ANode)} {ws : List (String × String)}
    (h : stageUnprocessed prepared processed ((k0, n0) :: rest) = .ok ws) :
    (processed.contains k0 = true ∧
      stageUnprocessed prepared processed rest = .ok ws) ∨
    (processed.contains k0 = false ∧ ∃ w0 wrest,
      stageOne prepared k0 n0 = .ok w0 ∧
      stageUnprocessed prepared processed rest = .ok wrest ∧
      ws = w0 ++ wrest) := by
  have h0 : stageUnprocessed prepared processed ((k0, n0) :: rest) =
      (if processed.contains k0 = true then
        stageUnprocessed prepared processed rest
      else do
        let w ← stageOne prepared k0 n0
        let wrest ← stageUnprocessed prepared processed rest
        Except.ok (w ++ wrest)) := rfl
  rw [h0] at h
  cases hc : processed.contains k0 with
  | true =>
    rw [if_pos hc] at h
    exact Or.inl ⟨rfl, h⟩
  | false =>
    rw [if_neg (fun hcc => by rw [hcc] at hc; cases hc)] at h
    refine Or.inr ⟨rfl, ?_⟩
    cases h1 : stageOne prepared k0 n0 with
    | error e => rw [h1, except_bind_error] at h; cases h
    | ok w0 =>
      rw [h1, except_bind_ok] at h
      cases h2 : stageUnprocessed prepared processed rest with
      | error e => rw [h2, except_bind_error] at h; cases h
      | ok wrest =>
        rw [h2, except_bind_ok] at h
        injection h with h
        exact ⟨w0, wrest, rfl, rfl, h.symm⟩

theorem stage_writes {prepared : List (String × Option String)}
    {processed : List String} :
    ∀ (nodes : List (String × ANode)) (ws : List (String × String)),
      stageUnprocessed prepared processed nodes = .ok ws →
      ∀ e ∈ ws, ∃ k n, (k, n) ∈ nodes ∧ e ∈ nodeWrites prepared k n := by
  intro nodes
  induction nodes with
  | nil =>
    intro ws h e he
    injection h with h
    rw [← h] at he
    cases he
  | cons hd rest ih =>
    obtain ⟨k0, n0⟩ := hd
    intro ws h e he
    rcases stage_cons_inv h with ⟨_, hrest⟩ | ⟨_, w0, wrest, h1, h2, hws⟩
    · obtain ⟨k, n, hmem, hw⟩ := ih ws hrest e he
      exact ⟨k, n, List.mem_cons_of_mem _ hmem, hw⟩
    · rw [hws] at he
      rcases List.mem_append.mp he with he | he
      · exact ⟨k0, n0, by simp, (stageOne_ok_writes h1) ▸ he⟩
      · obtain ⟨k, n, hmem, hw⟩ := ih wrest h2 e he
        exact ⟨k, n, List.mem_cons_of_mem _ hmem, hw⟩

theorem stage_includes {prepared : List (String × Option String)}
    {processed : List String} :
    ∀ (nodes : List (String × ANode)) (key : String) (n : ANode)
      (ws : List (String × String)),
      (key, n) ∈ nodes → processed.contains key = false →
      stageUnprocessed prepared processed nodes = .ok ws →
      ∀ e ∈ nodeWrites prepared key n, e ∈ ws := by
  intro nodes
  induction nodes with
  | nil => intro key n ws hmem _ _ e _; cases hmem
  | cons hd rest ih =>
    obtain ⟨k0, n0⟩ := hd
    intro key n ws hmem hkf h e he
    rcases stage_cons_inv h with ⟨hc, hrest⟩ | ⟨hc, w0, wrest, h1, h2, hws⟩
    · rcases List.mem_cons.mp hmem with heq | hmem'
      · injection heq with e1 e2
        subst e1
        rw [hkf] at hc
        cases hc
      · exact ih key n ws hmem' hkf hrest e he
    · rcases List.mem_cons.mp hmem with heq | hmem'
      · injection heq with e1 e2
        subst e1
        subst e2
        rw [hws]
        exact List.mem_append_left _ ((stageOne_ok_writes h1) ▸ he)
      · rw [hws]
        exact List.mem_append_right _ (ih key n wrest hmem' hkf h2 e he)

/-! ## Working-directory read lemmas -/

theorem readFS_writeFS (fs : FS) (q c p : String) :
    readFS (writeFS fs q c) p = if q = p then some c else readFS fs p := by
  by_cases h : q = p
  · simp [readFS, writeFS, h]
  · simp [readFS, writeFS, h]

theorem find?_append {α : Type} (p : α → Bool) :
    ∀ (l1 l2 : List α),
      (l1 ++ l2).find? p = ((l1.find? p).orElse (fun _ => l2.find? p)) := by
  intro l1
  induction l1 with
  | nil => intro l2; rfl
  | cons x xs ih =>
    intro l2
    cases hx : p x with
    | true => simp [List.find?_cons, hx]
    | false => simp [List.find?_cons, hx, ih l2]

theorem readFS_applyWrites :
    ∀ (ws : List (String × String)) (fs : FS) (p : String),
      readFS (applyWrites ws fs) p =
        match ws.reverse.find? (fun e => e.1 = p) with
        | some e => some e.2
        | none => readFS fs p := by
  intro ws
  induction ws with
  | nil => intro fs p; rfl
  | cons w ws' ih =>
    intro fs p
    obtain ⟨q, c⟩ := w
    show readFS (applyWrites ws' (writeFS fs q c)) p = _
    rw [ih (writeFS fs q c) p, readFS_writeFS]
    have hrev : ((q, c) :: ws').reverse = ws'.reverse ++ [(q, c)] := by simp
    rw [hrev, find?_append]
    cases hf : ws'.reverse.find? (fun e => e.1 = p) with
    | some e => simp [Option.orElse]
    | none =>
      simp only [Option.orElse, Option.none_orElse]
      by_cases hq : q = p
      · simp [List.find?_cons, hq]
      · simp [List.find?_cons, hq]

theorem readFS_applyWrites_uniform (ws : List (String × String)) (p c : String)
    (hex : ∃ e ∈ ws, e.1 = p)
    (huni : ∀ e ∈ ws, e.1 = p → e.2 = c) :
    readFS (applyWrites ws []) p = some c := by
  rw [readFS_applyWrites]
  cases hf : ws.reverse.find? (fun e => e.1 = p) with
  | some e =>
    have hep : e.1 = p := by
      have := List.find?_some hf
      simpa using this
    have hmem : e ∈ ws := by
      have := List.mem_of_find?_eq_some hf
      simpa using this
    simp [huni e hmem hep]
  | none =>
    exfalso
    obtain ⟨e, hmem, hep⟩ := hex
    have := List.find?_eq_none.mp hf e (by simpa using hmem)
    simp [hep] at this

theorem readFS_applyWrites_idem (ws : List (String × String)) (fs : FS)
    (p : String) :
    readFS (applyWrites ws (applyWrites ws fs)) p =
      readFS (applyWrites ws fs) p := by
  rw [readFS_applyWrites, readFS_applyWrites]
  cases hf : ws.reverse.find? (fun e => e.1 = p) with
  | some e => rfl
  | none => rfl

/-! ## Association-list lemmas under unique keys -/

theorem mem_of_alookup {α : Type} {l : List (String × α)} {k : String} {v : α}
    (h : alookup l k = some v) : (k, v) ∈ l := by
  unfold alookup at h
  cases hf : l.find? (fun e => e.1 = k) with
  | none => rw [hf] at h; cases h
  | some e =>
    rw [hf] at h
    injection h with h
    have hek : e.1 = k := by
      have := List.find?_some hf
      simpa using this
    have hmem : e ∈ l := List.mem_of_find?_eq_some hf
    have : (k, v) = e := by
      rw [← hek, ← h]
    rw [this]
    exact hmem

theorem alookup_eq_of_mem_nodup {α : Type} :
    ∀ {l : List (String × α)} {k : String} {v : α},
      (l.map Prod.fst).Nodup → (k, v) ∈ l → alookup l k = some v := by
  intro l
  induction l with
  | nil => intro k v _ hmem; cases hmem
  | cons hd rest ih =>
    obtain ⟨k0, v0⟩ := hd
    intro k v hnd hmem
    rcases List.mem_cons.mp hmem with heq | hmem'
    · injection heq with e1 e2
      subst e1
      subst e2
      exact alookup_cons_eq _ _ _
    · have hk0 : k0 ≠ k := by
        intro hk
        subst hk
        have : k0 ∈ rest.map Prod.fst :=
          List.mem_map.mpr ⟨(k0, v), hmem', rfl⟩
        exact (List.nodup_cons.mp hnd).1 this
      rw [alookup_cons_ne _ _ hk0]
      exact ih (List.nodup_cons.mp hnd).2 hmem'

/-! ## Remaining prepare and process-level lemmas -/

theorem alookup_cons_fst_eq {α : Type} {k : String} (p : String × α)
    (l : List (String × α)) (h : p.1 = k) :
    alookup (p :: l) k = some p.2 := by
  obtain ⟨a, b⟩ := p
  subst h
  exact alookup_cons_eq _ _ _

theorem prepare_filenames_folder (reserved : List String)
    (entropy : String → String) (filenames : List (String × String)) :
    ∀ (nodes : List (String × ANode)) (m : List (String × Option String))
      (w : List String) (key : String) (tree : List (String × String)),
      prepare_filenames reserved entropy filenames nodes = .ok (m, w) →
      alookup nodes key = some (.folder tree) →
      alookup m key =
        some ((collisionStep reserved entropy key (alookup filenames key)).1.2) := by
  intro nodes
  induction nodes with
  | nil =>
    intro m w key tree hp hk
    simp [alookup] at hk
  | cons hd rest ih =>
    obtain ⟨k0, n0⟩ := hd
    intro m w key tree hp hk
    cases hrest : prepare_filenames reserved entropy filenames rest with
    | error e =>
      exfalso
      cases n0 with
      | singlefile fn0 c0 => rw [prep_cons_singlefile_err k0 fn0 c0 hrest] at hp; cases hp
      | folder tr =>
        cases hf : (firstLevelNames tr).any (fun f => reserved.contains f) with
        | true => rw [prep_cons_folder_err_reserved hf] at hp; cases hp
        | false => rw [prep_cons_folder_err_rest hf hrest] at hp; cases hp
      | remote p => rw [prep_cons_remote, hrest] at hp; cases hp
      | scalar v => rw [prep_cons_scalar, hrest] at hp; cases hp
    | ok mw =>
      obtain ⟨m', w'⟩ := mw
      by_cases hk0 : k0 = key
      · subst hk0
        rw [alookup_cons_eq] at hk
        injection hk with hk
        subst hk
        cases hf : (firstLevelNames tree).any (fun f => reserved.contains f) with
        | true => rw [prep_cons_folder_err_reserved hf] at hp; cases hp
        | false =>
          rw [prep_cons_folder_ok hf hrest] at hp
          injection hp with hp
          obtain ⟨hm, hw⟩ := Prod.mk.injEq .. |>.mp hp
          rw [← hm]
          exact alookup_cons_fst_eq _ _ (collisionStep_fst_key _ _ _ _)
      · rw [alookup_cons_ne _ _ hk0] at hk
        have hrec := ih m' w' key tree hrest hk
        cases n0 with
        | singlefile fn0 c0 =>
          rw [prep_cons_singlefile_ok k0 fn0 c0 hrest] at hp
          injection hp with hp
          obtain ⟨hm, _⟩ := Prod.mk.injEq .. |>.mp hp
          rw [← hm, alookup_cons_ne _ _ hk0]
          exact hrec
        | folder tr =>
          cases hf : (firstLevelNames tr).any (fun f => reserved.contains f) with
          | true => rw [prep_cons_folder_err_reserved hf] at hp; cases hp
          | false =>
            rw [prep_cons_folder_ok hf hrest] at hp
            injection hp with hp
            obtain ⟨hm, _⟩ := Prod.mk.injEq .. |>.mp hp
            rw [← hm, alookup_cons_fst_ne _ _
              (by rw [collisionStep_fst_key]; exact hk0)]
            exact hrec
        | remote p =>
          rw [prep_cons_remote, hrest] at hp
          injection hp with hp
          obtain ⟨hm, _⟩ := Prod.mk.injEq .. |>.mp hp
          rw [← hm]
          exact hrec
        | scalar v =>
          rw [prep_cons_scalar, hrest] at hp
          injection hp with hp
          obtain ⟨hm, _⟩ := Prod.mk.injEq .. |>.mp hp
          rw [← hm]
          exact hrec

theorem collisionStep_no_collision (reserved : List String)
    (entropy : String → String) (key : String) (fo : Option String)
    (h : ∀ f, fo = some f → reserved.contains f = false) :
    ((collisionStep reserved entropy key fo).1).2 = fo := by
  cases fo with
  | none => rfl
  | some f =>
    have hf := h f rfl
    have hm : f ∉ reserved := fun hmem => by
      have hc2 : reserved.contains f = true := List.elem_iff.mpr hmem
      rw [hc2] at hf
      cases hf
    simp [collisionStep, hf, hm]

theorem process_ok_inv {reserved : List String} {entropy : String → String}
    {nodes : List (String × ANode)} {filenames : List (String × String)}
    {arguments args : List String} {fs : FS} {warnings : List String}
    (h : process_arguments_and_nodes reserved entropy nodes filenames arguments =
      .ok (args, fs, warnings)) :
    ∃ prepared used ws1 ws2,
      prepare_filenames reserved entropy filenames nodes = .ok (prepared, warnings) ∧
      processLoop nodes prepared arguments = .ok (args, used, ws1) ∧
      stageUnprocessed prepared used nodes = .ok ws2 ∧
      fs = applyWrites (ws1 ++ ws2) [] := by
  unfold process_arguments_and_nodes at h
  cases hp : prepare_filenames reserved entropy filenames nodes with
  | error e => rw [hp, except_bind_error] at h; cases h
  | ok pw =>
    obtain ⟨prepared, warnings'⟩ := pw
    rw [hp, except_bind_ok] at h
    have hA : (do
        let y ← processLoop nodes prepared arguments
        match y with
        | (args', used, ws1) => do
          let ws2 ← stageUnprocessed prepared used nodes
          Except.ok (args', applyWrites (ws1 ++ ws2) [], warnings') :
        Except String (List String × FS × List String)) =
        .ok (args, fs, warnings) := h
    cases hl : processLoop nodes prepared arguments with
    | error e => rw [hl, except_bind_error] at hA; cases hA
    | ok y =>
      obtain ⟨args', used, ws1⟩ := y
      rw [hl, except_bind_ok] at hA
      have hB : (do
          let ws2 ← stageUnprocessed prepared used nodes
          Except.ok (args', applyWrites (ws1 ++ ws2) [], warnings') :
          Except String (List String × FS × List String)) =
          .ok (args, fs, warnings) := hA
      cases hs : stageUnprocessed prepared used nodes with
      | error e => rw [hs, except_bind_error] at hB; cases hB
      | ok ws2 =>
        rw [hs, except_bind_ok] at hB
        injection hB with hB
        obtain ⟨ha, hrest2⟩ := Prod.mk.injEq .. |>.mp hB
        obtain ⟨hf, hw⟩ := Prod.mk.injEq .. |>.mp hrest2
        subst ha
        rw [← hw]
        exact ⟨prepared, used, ws1, ws2, rfl, hl, hs, hf.symm⟩

/-! ## C3: single-placeholder SingleFile tokens -/

/-- C3: an argument token of the shape pre{key}suf (brace-free pre and suf,
plain nonempty field name) whose placeholder binds a SinglefileData node is
replaced, at its position in the processed vector, by the token with the
placeholder substituted by the finalized relative filename: the explicit
filenames entry when present, else the intrinsic filename unless it is the
aiida type default, else the key. After processing, that file exists in the
working directory with content identical to the node content. The
hypotheses pin the regime the claim describes: the finalized name avoids
the reserved names (the collision case is C4) and no other node writes to
that path (the duplicate-target case is C10). -/
theorem C3_placeholder_substitution_and_staging
    (reserved : List String) (entropy : String → String)
    (nodes : List (String × ANode)) (filenames : List (String × String))
    (arguments args : List String) (fs : FS) (warnings : List String)
    (prepared : List (String × Option String)) (i : Nat) (pre suf : List Char)
    (key : String) (fn : Option String) (content : String)
    (hnd : (nodes.map Prod.fst).Nodup)
    (hnode : alookup nodes key = some (.singlefile fn content))
    (htok : arguments.get? i =
      some (String.mk (pre ++ '{' :: (key.data ++ '}' :: suf))))
    (hpre : braceFree pre) (hsuf : braceFree suf)
    (hkey : keyOk key.data) (hkne : key.data ≠ [])
    (hF : reserved.contains
      (single_file_target key fn (alookup filenames key)) = false)
    (hp : prepare_filenames reserved entropy filenames nodes =
      .ok (prepared, warnings))
    (hother : ∀ k' n', alookup nodes k' = some n' → k' ≠ key →
      single_file_target key fn (alookup filenames key) ∉
        nodeWritePaths prepared k' n')
    (hrun : process_arguments_and_nodes reserved entropy nodes filenames
      arguments = .ok (args, fs, warnings)) :
    args.get? i = some (String.mk (pre ++
      ((single_file_target key fn (alookup filenames key)).data ++ suf))) ∧
    readFS fs (single_file_target key fn (alookup filenames key)) =
      some content := by
  obtain ⟨prepared', used, ws1, ws2, hp', hl, hs, hfs⟩ := process_ok_inv hrun
  rw [hp] at hp'
  injection hp' with hp'
  obtain ⟨hpp, _⟩ := Prod.mk.injEq .. |>.mp hp'
  subst hpp
  have hmain := (prepare_filenames_singlefile reserved entropy filenames nodes
    prepared warnings key fn content hp hnode).1
  have hpsf : prepared_single_filename reserved entropy filenames key fn =
      single_file_target key fn (alookup filenames key) := by
    simp only [prepared_single_filename]
    rw [hF]
    simp
  have hpF : alookup prepared key =
      some (some (single_file_target key fn (alookup filenames key))) := by
    rw [hmain, hpsf]
  have hfn : fieldNames (String.mk (pre ++ '{' :: (key.data ++ '}' :: suf))) =
      .ok [key] :=
    fieldNames_token pre key.data suf hpre hkey hkne hsuf
  have hfmt : pyFormat
      (fun n => if n = key then
        some (single_file_target key fn (alookup filenames key)) else none)
      (String.mk (pre ++ '{' :: (key.data ++ '}' :: suf))) =
      .ok (String.mk (pre ++
        ((single_file_target key fn (alookup filenames key)).data ++ suf))) := by
    apply pyFormat_token _ pre key.data suf _ hpre hkey hkne hsuf
    show (if String.mk key.data = key then
      some (single_file_target key fn (alookup filenames key)) else none) = _
    rw [if_pos rfl]
  have harg : processArgument nodes prepared
      (String.mk (pre ++ '{' :: (key.data ++ '}' :: suf))) =
      .ok (String.mk (pre ++
          ((single_file_target key fn (alookup filenames key)).data ++ suf)),
        some key,
        [(single_file_target key fn (alookup filenames key), content)]) := by
    rw [pa_single hfn, pp_some hnode, pn_singlefile_eq fn content hpF, hfmt,
      except_bind_ok]
  obtain ⟨s, u, w, hargi, hgeti, hwsub⟩ :=
    processLoop_get arguments args used ws1 hl i _ htok
  rw [harg] at hargi
  injection hargi with hargi
  obtain ⟨hsv, hrest3⟩ := Prod.mk.injEq .. |>.mp hargi
  obtain ⟨huv, hwv⟩ := Prod.mk.injEq .. |>.mp hrest3
  constructor
  · rw [hgeti, ← hsv]
  · have hwmem : (single_file_target key fn (alookup filenames key), content)
        ∈ ws1 := by
      apply hwsub
      rw [← hwv]
      simp
    have huni : ∀ e ∈ ws1 ++ ws2,
        e.1 = single_file_target key fn (alookup filenames key) →
        e.2 = content := by
      intro e he hef
      have hkeywrites : nodeWrites prepared key (.singlefile fn content) =
          [(single_file_target key fn (alookup filenames key), content)] := by
        unfold nodeWrites
        rw [hpF]
      rcases List.mem_append.mp he with he | he
      · obtain ⟨p, n, hn, hwn, _, _, _⟩ :=
          processLoop_writes arguments args used ws1 hl e he
        by_cases hpk : p = key
        · subst hpk
          rw [hnode] at hn
          injection hn with hn
          rw [← hn, hkeywrites] at hwn
          have := List.mem_singleton.mp hwn
          rw [this]
        · exact absurd (List.mem_map.mpr ⟨e, hwn, hef⟩) (hother p n hn hpk)
      · obtain ⟨k, n, hmem, hwn⟩ := stage_writes nodes ws2 hs e he
        have hn : alookup nodes k = some n := alookup_eq_of_mem_nodup hnd hmem
        by_cases hpk : k = key
        · subst hpk
          rw [hnode] at hn
          injection hn with hn
          rw [← hn, hkeywrites] at hwn
          have := List.mem_singleton.mp hwn
          rw [this]
        · exact absurd (List.mem_map.mpr ⟨e, hwn, hef⟩) (hother k n hn hpk)
    rw [hfs]
    exact readFS_applyWrites_uniform (ws1 ++ ws2) _ content
      ⟨(single_file_target key fn (alookup filenames key), content),
        List.mem_append_left _ hwmem, rfl⟩ huni

theorem fst_nodup_eq {α β : Type} : ∀ {l : List (α × β)},
    (l.map (fun e => e.1)).Nodup →
    ∀ {a b : α × β}, a ∈ l → b ∈ l → a.1 = b.1 → a = b := by
  intro l
  induction l with
  | nil => intro _ a b ha _ _; cases ha
  | cons hd rest ih =>
    intro hnd a b ha hb hab
    rw [List.map_cons] at hnd
    have hnd1 : hd.1 ∉ rest.map (fun e => e.1) := (List.nodup_cons.mp hnd).1
    have hnd2 := (List.nodup_cons.mp hnd).2
    rcases List.mem_cons.mp ha with ha | ha <;>
      rcases List.mem_cons.mp hb with hb | hb
    · rw [ha, hb]
    · exact absurd (List.mem_map.mpr ⟨b, hb, by rw [← hab, ha]⟩) hnd1
    · exact absurd (List.mem_map.mpr ⟨a, ha, by rw [hab, hb]⟩) hnd1
    · exact ih hnd2 ha hb hab

/-- Witness for C3: the token is the placeholder alone, the node carries an
intrinsic filename, and the staged file holds the node content. -/
theorem C3_witness :
    (["data.txt"] : List String).get? 0 = some "data.txt" ∧
    readFS [("data.txt", "content")] "data.txt" = some "content" := by
  have h := C3_placeholder_substitution_and_staging
    ["stdout", "stderr", "status"] (fun _ => "t")
    [("file_a", ANode.singlefile (some "data.txt") "content")] []
    ["{file_a}"] ["data.txt"] [("data.txt", "content")] []
    [("file_a", some "data.txt")] 0 [] [] "file_a" (some "data.txt") "content"
    (by simp) rfl rfl (by intro c hc; cases hc) (by intro c hc; cases hc)
    (by unfold keyOk; decide) (by decide) rfl rfl
    (by
      intro k' n' hk' hne
      by_cases hk : "file_a" = k'
      · exact absurd hk.symm hne
      · simp [alookup, hk] at hk')
    rfl
  exact h

/-! ## C8: unreferenced file-like nodes -/

/-- C8: a file-like node (SinglefileData or FolderData) whose key is
referenced by no placeholder of the argument template is still staged by
process_arguments_and_nodes: its prepared filename follows the same
resolution rule as placeholder-bound nodes (the explicit filenames entry or
the default, suffixed on a reserved collision for a single file; the
explicit entry after the collision step for a folder), every write of the
node is present in the resulting working directory with identical content,
and re-running the staging writes on the already-staged directory changes
no read (idempotence). The hypotheses pin the regime the claim describes:
no other node writes to this node's paths (the duplicate-target case is
C10) and the node's own write paths are distinct. -/
theorem C8_unreferenced_file_nodes_staged
    (reserved : List String) (entropy : String → String)
    (nodes : List (String × ANode)) (filenames : List (String × String))
    (arguments args : List String) (fs : FS) (warnings : List String)
    (prepared : List (String × Option String)) (key : String) (n : ANode)
    (fn : Option String) (content : String) (tree : List (String × String))
    (hnd : (nodes.map Prod.fst).Nodup)
    (hnode : alookup nodes key = some n)
    (hunref : ∀ tok ∈ arguments, fieldNames tok ≠ .ok [key])
    (hself : (nodeWritePaths prepared key n).Nodup)
    (hother : ∀ k' n', alookup nodes k' = some n' → k' ≠ key →
      ∀ p ∈ nodeWritePaths prepared key n, p ∉ nodeWritePaths prepared k' n')
    (hp : prepare_filenames reserved entropy filenames nodes =
      .ok (prepared, warnings))
    (hrun : process_arguments_and_nodes reserved entropy nodes filenames
      arguments = .ok (args, fs, warnings)) :
    (n = .singlefile fn content → alookup prepared key =
      some (some (prepared_single_filename reserved entropy filenames key fn))) ∧
    (n = .folder tree → alookup prepared key =
      some ((collisionStep reserved entropy key (alookup filenames key)).1.2)) ∧
    (∀ e ∈ nodeWrites prepared key n, readFS fs e.1 = some e.2) ∧
    ∃ W, fs = applyWrites W [] ∧
      ∀ p, readFS (applyWrites W fs) p = readFS fs p := by
  obtain ⟨prepared', used, ws1, ws2, hp', hl, hs, hfs⟩ := process_ok_inv hrun
  rw [hp] at hp'
  injection hp' with hp'
  obtain ⟨hpp, _⟩ := Prod.mk.injEq .. |>.mp hp'
  subst hpp
  have hkey_unused : used.contains key = false := by
    cases hc : used.contains key with
    | false => rfl
    | true =>
      have hmem : key ∈ used := List.elem_iff.mp hc
      obtain ⟨tok, htokmem, hfn'⟩ :=
        processLoop_used arguments args used ws1 hl key hmem
      exact absurd hfn' (hunref tok htokmem)
  refine ⟨?_, ?_, ?_, ?_⟩
  · intro hn
    rw [hn] at hnode
    exact (prepare_filenames_singlefile reserved entropy filenames nodes
      prepared warnings key fn content hp hnode).1
  · intro hn
    rw [hn] at hnode
    exact prepare_filenames_folder reserved entropy filenames nodes prepared
      warnings key tree hp hnode
  · intro e he
    have hmem2 : e ∈ ws2 := stage_includes nodes key n ws2
      (mem_of_alookup hnode) hkey_unused hs e he
    have huni : ∀ e' ∈ ws1 ++ ws2, e'.1 = e.1 → e'.2 = e.2 := by
      intro e' he' hef
      rcases List.mem_append.mp he' with he' | he'
      · obtain ⟨p, n', hn', hwn', tok, htokmem, hfn'⟩ :=
          processLoop_writes arguments args used ws1 hl e' he'
        by_cases hpk : p = key
        · subst hpk
          exact absurd hfn' (hunref tok htokmem)
        · exact absurd (by rw [← hef]; exact List.mem_map.mpr ⟨e', hwn', rfl⟩)
            (hother p n' hn' hpk e.1 (List.mem_map.mpr ⟨e, he, rfl⟩))
      · obtain ⟨k, n', hmemk, hwn'⟩ := stage_writes nodes ws2 hs e' he'
        have hn' : alookup nodes k = some n' := alookup_eq_of_mem_nodup hnd hmemk
        by_cases hpk : k = key
        · subst hpk
          rw [hnode] at hn'
          injection hn' with hn'
          rw [← hn'] at hwn'
          have hee : e' = e := fst_nodup_eq hself hwn' he hef
          rw [hee]
        · exact absurd (by rw [← hef]; exact List.mem_map.mpr ⟨e', hwn', rfl⟩)
            (hother k n' hn' hpk e.1 (List.mem_map.mpr ⟨e, he, rfl⟩))
    rw [hfs]
    exact readFS_applyWrites_uniform (ws1 ++ ws2) e.1 e.2
      ⟨e, List.mem_append_right _ hmem2, rfl⟩ huni
  · refine ⟨ws1 ++ ws2, hfs, fun p => ?_⟩
    rw [hfs]
    exact readFS_applyWrites_idem (ws1 ++ ws2) [] p

/-- Witness for C8: a single-file node never referenced (the argument
template is empty) is staged under its intrinsic filename with its
content. -/
theorem C8_witness :
    alookup [("file_a", (some "data.txt" : Option String))] "file_a" =
      some (some "data.txt") ∧
    readFS [("data.txt", "content")] "data.txt" = some "content" := by
  have h := C8_unreferenced_file_nodes_staged
    ["stdout", "stderr", "status"] (fun _ => "t")
    [("file_a", ANode.singlefile (some "data.txt") "content")] []
    [] [] [("data.txt", "content")] [] [("file_a", some "data.txt")]
    "file_a" (ANode.singlefile (some "data.txt") "content")
    (some "data.txt") "content" []
    (by simp) rfl (by intro tok htok; cases htok) (by decide)
    (by
      intro k' n' hk' hne
      by_cases hk : "file_a" = k'
      · exact absurd hk.symm hne
      · simp [alookup, hk] at hk')
    rfl rfl
  exact ⟨h.1 rfl, h.2.2.1 ("data.txt", "content") (List.mem_cons_self _ _)⟩

end AiidaShell
